import Mathlib

/-!
A shallow embedding of the giblefs filesystem core (`src/git.rs`, `src/fs.rs`):
a read-only FUSE view of a git object store.  Pure data is translated directly;
the mutable `GitRepo` state (inode counter plus the bidirectional inode↔hash
map) is threaded explicitly.  The git backend (`git2`) is modelled as an
immutable partial function from hashes to parsed objects, per the spec's
external-interface section.
-/

namespace Giblefs

/-- A content hash (`git2::Oid`), identified with its textual hex form.
Opaque identifier; only equality matters. -/
abbrev Oid := String

/-- `git2::ObjectType` (the variants the code can meet). -/
inductive ObjectType where
  | commit
  | tree
  | blob
  | tag
deriving DecidableEq

/-- One entry of a git tree: name, target hash, kind derived from the file
mode (`entry.kind()`, which is `None` for unrecognized modes), and the raw
file mode. -/
structure TreeEntry where
  name : String
  oid : Oid
  kind : Option ObjectType
  mode : Nat
deriving DecidableEq

/-- A parsed git object as the backend hands it out. -/
inductive ObjData where
  | commit (tree : Oid)
  | tree (entries : List TreeEntry)
  | blob (content : List Nat)
  | tag
deriving DecidableEq

/-- `Object::kind()` of a parsed object (always known for parsed objects). -/
def ObjData.otype : ObjData → ObjectType
  | .commit _ => .commit
  | .tree _ => .tree
  | .blob _ => .blob
  | .tag => .tag

/-- `Repository::find_object(hash, kind)`: look the object up in the store;
a `Some` kind acts as a filter, failing on a kind mismatch. -/
def findObject (objects : Oid → Option ObjData) (hash : Oid)
    (kind : Option ObjectType) : Option ObjData :=
  match objects hash with
  | none => none
  | some o =>
    match kind with
    | none => some o
    | some k => if o.otype = k then some o else none

/-- `BiMap::get_by_right`: the inode registered for a hash. -/
def getByRight (m : List (Nat × Oid)) (hash : Oid) : Option Nat :=
  (m.find? (fun p => p.2 = hash)).map (fun p => p.1)

/-- `BiMap::get_by_left`: the hash registered for an inode. -/
def getByLeft (m : List (Nat × Oid)) (ino : Nat) : Option Oid :=
  (m.find? (fun p => p.1 = ino)).map (fun p => p.2)

/-- `BiMap::insert`: overwrite semantics — any existing pair sharing either
key is removed before the new pair is added. -/
def bimapInsert (m : List (Nat × Oid)) (ino : Nat) (hash : Oid) :
    List (Nat × Oid) :=
  (ino, hash) :: m.filter (fun p => p.1 ≠ ino ∧ p.2 ≠ hash)

/-- The mutable state of `GitRepo`: the (immutable) backend object store, the
inode generator counter, the bidirectional inode↔hash map, and the
parent-tracking table.

`next_ino` is Modelled from the spec: `src/inode.rs` (`InodeGen`, `Ino`) is
absent from `src/`; §4.1 says `next()` issues monotonically increasing inodes
"starting above the reserved root value", so the counter starts at `2` and
`next()` returns the counter then increments it.

`pinfo` is Modelled from the spec: the revision of `fs.rs` in `src/` carries,
on every resolved `Ino`/`GitTree`, its parent inode (`ino.parent()`) and the
hash it was reached through (`tree.parent()`); the carrying types
(`src/git/types.rs`, the revised `src/inode.rs`) are absent from `src/`.
Per §4.3 every Tree "additionally carries: its own inode, its parent's hash
(for '..' ...)", recorded at resolution time, so we record, when an inode is
first assigned by the fs-layer by-hash accessor, the inode of the parent hash
and the parent hash itself. -/
structure GitRepo where
  objects : Oid → Option ObjData
  next_ino : Nat
  inode_map : List (Nat × Oid)
  pinfo : List (Nat × (Nat × Oid))

/-- `GitRepo::new`: fresh repository handle with an empty registry
(`src/git.rs` lines 22-35; the generator start is Modelled from the spec,
§4.1). -/
def GitRepo.new (objects : Oid → Option ObjData) : GitRepo :=
  ⟨objects, 2, [], []⟩

/-- `GitRepo::get_object` (`src/git.rs` lines 38-51): resolve the object from
the backend, then return its registered inode, assigning a fresh one if the
hash is not registered yet. -/
def get_object (s : GitRepo) (hash : Oid) (kind : Option ObjectType) :
    Option (Nat × ObjData) × GitRepo :=
  match findObject s.objects hash kind with
  | none => (none, s)
  | some o =>
    match getByRight s.inode_map hash with
    | some ino => (some (ino, o), s)
    | none =>
      (some (s.next_ino, o),
        { s with
            next_ino := s.next_ino + 1,
            inode_map := bimapInsert s.inode_map s.next_ino hash })

/-- `GitRepo::get_object_by_inode` (`src/git.rs` lines 54-64): look the hash
up in the registry, then resolve the object with the expected-kind filter.
Takes `&self`: no state change. -/
def get_object_by_inode (s : GitRepo) (ino : Nat) (kind : Option ObjectType) :
    Option (Nat × ObjData) :=
  match getByLeft s.inode_map ino with
  | some hash => (findObject s.objects hash kind).map (fun o => (ino, o))
  | none => none

/-- Modelled from the spec: the fs-layer three-argument
`GitRepo::get_object(parent, oid, kind)` called by the revision of `fs.rs` in
`src/` (its `git.rs` revision is absent).  Per §4.3 the by-hash accessor
resolves the object from the backend then `resolve_or_assign`s its inode —
the same registry logic as `get_object` above — and the parent context is
recorded so the resolved entity carries its parent's identity. -/
def get_object3 (s : GitRepo) (parent : Oid) (hash : Oid)
    (kind : Option ObjectType) : Option (Nat × ObjData) × GitRepo :=
  match findObject s.objects hash kind with
  | none => (none, s)
  | some o =>
    match getByRight s.inode_map hash with
    | some ino => (some (ino, o), s)
    | none =>
      (some (s.next_ino, o),
        { s with
            next_ino := s.next_ino + 1,
            inode_map := bimapInsert s.inode_map s.next_ino hash,
            pinfo :=
              (s.next_ino, ((getByRight s.inode_map parent).getD 1, parent))
                :: s.pinfo })

/-- A resolved tree (`GitTree` of `src/git/types.rs`, absent from `src/`;
fields per §4.3: own inode, parent inode for `".."`, the hash it was reached
through, and the captured ordered entry snapshot). -/
structure GitTree where
  ino : Nat
  parentIno : Nat
  parentOid : Oid
  entries : List TreeEntry
deriving DecidableEq

/-- A resolved blob (`GitBlob` of `src/git/types.rs`): inode plus content. -/
structure GitBlob where
  ino : Nat
  content : List Nat
deriving DecidableEq

/-- Parent info recorded for an inode, defaulting to the synthetic root. -/
def parentInfo (s : GitRepo) (ino : Nat) : Nat × Oid :=
  ((s.pinfo.find? (fun q => q.1 = ino)).map (fun q => q.2)).getD (1, "")

/-- `GitRepo::get_tree_by_inode`: by-inode resolution with a Tree filter
(`src/git.rs` lines 78-80; the `GitTree` construction is Modelled from the
spec, §4.3). -/
def get_tree_by_inode (s : GitRepo) (ino : Nat) : Option GitTree :=
  match get_object_by_inode s ino (some .tree) with
  | some (i, .tree entries) =>
    some ⟨i, (parentInfo s i).1, (parentInfo s i).2, entries⟩
  | _ => none

/-- `GitRepo::get_blob_by_inode`: by-inode resolution with a Blob filter
(`src/git.rs` lines 86-88). -/
def get_blob_by_inode (s : GitRepo) (ino : Nat) : Option GitBlob :=
  match get_object_by_inode s ino (some .blob) with
  | some (_, .blob content) => some ⟨ino, content⟩
  | _ => none

/-- `GitRepo::get_tree(parent, hash)` of the `fs.rs` revision: by-hash tree
resolution (Modelled from the spec, §4.3, via `get_object3`). -/
def get_tree (s : GitRepo) (parent : Oid) (hash : Oid) :
    Option GitTree × GitRepo :=
  match get_object3 s parent hash (some .tree) with
  | (some (i, .tree entries), t) =>
    (some ⟨i, (parentInfo t i).1, (parentInfo t i).2, entries⟩, t)
  | (_, t) => (none, t)

/-- `GitRepo::get_blob(parent, hash)` of the `fs.rs` revision: by-hash blob
resolution (Modelled from the spec, §4.3, via `get_object3`). -/
def get_blob (s : GitRepo) (parent : Oid) (hash : Oid) :
    Option GitBlob × GitRepo :=
  match get_object3 s parent hash (some .blob) with
  | (some (i, .blob content), t) => (some ⟨i, content⟩, t)
  | (_, t) => (none, t)

/-- Modelled from the spec: `GitRepo::get_tree_by_commit` called by
`GilberFS::lookup_commit` (`src/fs.rs` line 59) is absent from `src/`.
Per §4.5 the root lookup resolves the hash to a Commit and returns that
Commit's root Tree; so: resolve the Commit by hash, then resolve its root
tree by hash with the commit as parent context. -/
def get_tree_by_commit (s : GitRepo) (hash : Oid) : Option GitTree × GitRepo :=
  match get_object s hash (some .commit) with
  | (some (_, .commit troot), t) => get_tree t hash troot
  | (_, t) => (none, t)

/-- Hex digit test for hash parsing. -/
def isHexChar (c : Char) : Bool :=
  c.isDigit || ('a' ≤ c && c ≤ 'f') || ('A' ≤ c && c ≤ 'F')

/-- Modelled from the spec: `Oid::from_str` is backend functionality; per §6
hash parsing is "parse or fail with invalid-format" and per §3 a content hash
is "an opaque fixed-length identifier", so a string parses exactly when it is
a full-length (40 character) hex string. -/
def parseOid (s : String) : Option Oid :=
  if s.length == 40 && s.data.all isHexChar then some s else none

/-- `fuse::FileType` (the kinds this filesystem produces). -/
inductive FileType where
  | Directory
  | RegularFile
deriving DecidableEq

/-- `fuse::FileAttr`, restricted to the fields the attribute synthesizer
actually varies (timestamps are a fixed epoch sentinel, §4.4). -/
structure FileAttr where
  ino : Nat
  size : Nat
  kind : FileType
  perm : Nat
  nlink : Nat
  uid : Nat
  gid : Nat
deriving DecidableEq

/-- `FileAttrBuilder` (`src/fs/attr.rs`, absent from `src/`): the owning
identity fixed at mount time (Modelled from the spec, §4.4). -/
structure FileAttrBuilder where
  uid : Nat
  gid : Nat
deriving DecidableEq

/-- Modelled from the spec: `ToFileAttr for GitTree` (`src/fs/attr.rs` is
absent); §4.4: Directory kind, size 0, directories traversable, link count 2
by filesystem convention. -/
def GitTree.to_file_attr (t : GitTree) (b : FileAttrBuilder) : FileAttr :=
  ⟨t.ino, 0, .Directory, 0o755, 2, b.uid, b.gid⟩

/-- Modelled from the spec: `ToFileAttr for GitBlob`; §4.4: RegularFile kind,
size = byte length, files readable, link count 1. -/
def GitBlob.to_file_attr (bl : GitBlob) (b : FileAttrBuilder) : FileAttr :=
  ⟨bl.ino, bl.content.length, .RegularFile, 0o644, 1, b.uid, b.gid⟩

/-- POSIX error codes the handlers reply with. -/
inductive Errno where
  | ENOENT
  | EISDIR
  | EINVAL
deriving DecidableEq

/-- Reply of a `lookup` request. -/
inductive LookupResult where
  | entry (attr : FileAttr)
  | error (e : Errno)
deriving DecidableEq

/-- `GilberFS::lookup_commit` (`src/fs.rs` lines 57-61): parse the hash,
resolve commit → root tree, synthesize attributes. -/
def lookup_commit (b : FileAttrBuilder) (s : GitRepo) (hash : String) :
    Option FileAttr × GitRepo :=
  match parseOid hash with
  | none => (none, s)
  | some oid =>
    match get_tree_by_commit s oid with
    | (some t, s1) => (some (t.to_file_attr b), s1)
    | (none, s1) => (none, s1)

/-- `GilberFS::lookup` (`src/fs.rs` lines 65-118).  Names are modelled as
strings (the `OsStr` invalid-UTF-8 reply is the same `ENOENT`); the
single-component `get_path` walk on the captured snapshot is name lookup in
the entry list. -/
def lookup (b : FileAttrBuilder) (s : GitRepo) (parent : Nat) (name : String) :
    LookupResult × GitRepo :=
  if parent = 1 then
    match lookup_commit b s name with
    | (some attr, s1) => (.entry attr, s1)
    | (none, s1) => (.error .ENOENT, s1)
  else
    match get_tree_by_inode s parent with
    | none => (.error .ENOENT, s)
    | some tree =>
      match tree.entries.find? (fun e => e.name = name) with
      | none => (.error .ENOENT, s)
      | some e =>
        match e.kind with
        | some .blob =>
          match get_blob s tree.parentOid e.oid with
          | (some bl, s1) => (.entry (bl.to_file_attr b), s1)
          | (none, s1) => (.error .ENOENT, s1)
        | some .tree =>
          match get_tree s tree.parentOid e.oid with
          | (some t, s1) => (.entry (t.to_file_attr b), s1)
          | (none, s1) => (.error .ENOENT, s1)
        | _ => (.error .ENOENT, s)

/-- Reply of a `read` request.  `crash` marks the Rust slice-indexing panic
(`&content[offset..end]` with `offset > end` aborts rather than replying). -/
inductive ReadResult where
  | data (bytes : List Nat)
  | error (e : Errno)
  | crash
deriving DecidableEq

/-- `GilberFS::read` (`src/fs.rs` lines 132-156).  `offset` is the raw `i64`
(`usize::try_from` fails exactly on negatives on a 64-bit target); `size` is
the `u32`, whose `usize` conversion always succeeds.  The slice
`&content[o .. min(o+size, len)]` is in-bounds iff `o ≤ min(o+size, len)`,
otherwise Rust panics. -/
def read (s : GitRepo) (ino : Nat) (offset : Int) (size : Nat) : ReadResult :=
  if ino = 1 then .error .EISDIR
  else
    match get_blob_by_inode s ino with
    | some blob =>
      if offset < 0 then .error .EINVAL
      else
        let o := offset.toNat
        let stop := min (o + size) blob.content.length
        if o ≤ stop then .data ((blob.content.drop o).take (stop - o))
        else .crash
    | none =>
      match get_tree_by_inode s ino with
      | some _ => .error .EISDIR
      | none => .error .ENOENT

/-- One directory entry as passed to `reply.add(ino, off, kind, name)`. -/
structure DirEntry where
  ino : Nat
  off : Int
  kind : FileType
  name : String
deriving DecidableEq

/-- Reply of a `readdir` request. -/
inductive ReaddirResult where
  | ok (entries : List DirEntry)
  | error (e : Errno)
deriving DecidableEq

/-- The body of `readdir`'s per-entry loop (`src/fs.rs` lines 215-237): the
enumerated entry `(idx, e)` is resolved by hash with the entry kind as
filter; a Blob or Tree is emitted at offset `idx + 3`, anything else is
skipped with an operator-visible `error!` log (returned as the logged hash),
as is a failed resolution. -/
def processEntry (s : GitRepo) (parent : Oid) (p : Nat × TreeEntry) :
    (List DirEntry × List Oid) × GitRepo :=
  match get_object3 s parent p.2.oid p.2.kind with
  | (some (ino, o), s1) =>
    match o.otype with
    | .blob => (([⟨ino, (p.1 : Int) + 3, .RegularFile, p.2.name⟩], []), s1)
    | .tree => (([⟨ino, (p.1 : Int) + 3, .Directory, p.2.name⟩], []), s1)
    | _ => (([], [p.2.oid]), s1)
  | (none, s1) => (([], [p.2.oid]), s1)

/-- The `readdir` loop over the (already offset-skipped) enumerated entries,
collecting emitted entries and logged hashes in order. -/
def processEntries (parent : Oid) :
    GitRepo → List (Nat × TreeEntry) → (List DirEntry × List Oid) × GitRepo
  | s, [] => (([], []), s)
  | s, p :: rest =>
    let x := processEntry s parent p
    let y := processEntries parent x.2 rest
    ((x.1.1 ++ y.1.1, x.1.2 ++ y.1.2), y.2)

/-- The synthetic `"."` (offset 1) and `".."` (offset 2) entries of
`readdir`, as emitted for a resume cursor `off` (each is skipped once the
cursor has reached its offset). -/
def readdirDots (tree : GitTree) (off : Nat) : List DirEntry :=
  (if 1 ≤ off then [] else [⟨tree.ino, 1, .Directory, "."⟩]) ++
    (if 2 ≤ off then [] else [⟨tree.parentIno, 2, .Directory, ".."⟩])

/-- The body of `readdir` once the tree is resolved: synthetic entries, then
the captured entries after `skip(offset.saturating_sub(2))` at offsets
`idx + 3`. -/
def readdirTree (s : GitRepo) (tree : GitTree) (off : Nat) :
    (ReaddirResult × List Oid) × GitRepo :=
  let y := processEntries tree.parentOid s (tree.entries.enum.drop (off - 2))
  ((.ok (readdirDots tree off ++ y.1.1), y.1.2), y.2)

/-- `GilberFS::readdir` (`src/fs.rs` lines 158-240).  Returns the reply, the
hashes logged with `error!` for skipped entries, and the final state. -/
def readdir (s : GitRepo) (ino : Nat) (offset : Int) :
    (ReaddirResult × List Oid) × GitRepo :=
  if ino = 1 then ((.error .ENOENT, []), s)
  else if offset < 0 then ((.error .EINVAL, []), s)
  else
    match get_tree_by_inode s ino with
    | none => ((.error .ENOENT, []), s)
    | some tree => readdirTree s tree offset.toNat

/-- The kind a captured entry is listed with, as a function of the (immutable)
object store alone: `some` exactly when the entry resolves through its kind
filter to a Blob or Tree. -/
def entryFT (objects : Oid → Option ObjData) (e : TreeEntry) :
    Option FileType :=
  match findObject objects e.oid e.kind with
  | some o =>
    match o.otype with
    | .blob => some .RegularFile
    | .tree => some .Directory
    | _ => none
  | none => none

/-- The state invariant of a live mount: the counter started above the root
inode and dominates every registered inode and every parent record, and the
registry is injective in both directions. -/
def Good (s : GitRepo) : Prop :=
  2 ≤ s.next_ino ∧
    (∀ p ∈ s.inode_map, p.1 < s.next_ino) ∧
    (∀ q ∈ s.pinfo, q.1 < s.next_ino) ∧
    s.inode_map.Pairwise (fun p q => p.1 ≠ q.1 ∧ p.2 ≠ q.2) ∧
    s.pinfo.Pairwise (fun p q => p.1 ≠ q.1)

instance (s : GitRepo) : Decidable (Good s) := by
  unfold Good; infer_instance

/-- `t` is a later state of the same mount session as `s`: same backend, the
counter only grew, no registration or parent record was lost, and everything
new got a then-fresh inode. -/
def Extends (s t : GitRepo) : Prop :=
  t.objects = s.objects ∧ s.next_ino ≤ t.next_ino ∧
    (∀ p ∈ s.inode_map, p ∈ t.inode_map) ∧
    (∀ q ∈ s.pinfo, q ∈ t.pinfo) ∧
    (∀ p ∈ t.inode_map, p ∈ s.inode_map ∨ s.next_ino ≤ p.1) ∧
    (∀ q ∈ t.pinfo, q ∈ s.pinfo ∨ s.next_ino ≤ q.1)

/-- A sequence of registry resolve-or-assign calls, threaded through the
state. -/
def runOps (s : GitRepo) : List (Oid × Option ObjectType) → GitRepo
  | [] => s
  | (h, k) :: rest => runOps (get_object s h k).2 rest

/-! Concrete fixtures used by the witness theorems. -/

/-- A store holding one two-byte blob (`"hi"`). -/
def exBlobObjects : Oid → Option ObjData := fun h =>
  if h = "b1" then some (.blob [104, 105]) else none

/-- A session where that blob is registered at inode 2. -/
def exBlobRepo : GitRepo := ⟨exBlobObjects, 3, [(2, "b1")], []⟩

/-- Entries of the spec §8 scenario tree: one file `"a.txt"` and one
subdirectory `"d"`. -/
def exTreeEntries : List TreeEntry :=
  [⟨"a.txt", "b1", some .blob, 0o100644⟩, ⟨"d", "t2", some .tree, 0o40000⟩]

/-- The spec §8 scenario store: a root tree with one file `"a.txt"`
(content `"hi"`) and one empty subdirectory `"d"`. -/
def exTreeObjects : Oid → Option ObjData := fun h =>
  if h = "t1" then some (.tree exTreeEntries)
  else if h = "b1" then some (.blob [104, 105])
  else if h = "t2" then some (.tree [])
  else none

/-- A session where that root tree is registered at inode 2, reached through
commit `"c1"`. -/
def exTreeRepo : GitRepo := ⟨exTreeObjects, 3, [(2, "t1")], [(2, (1, "c1"))]⟩

/-- The full single-call `readdir` listing of the scenario tree. -/
def exTreeFull : List DirEntry :=
  [⟨2, 1, .Directory, "."⟩, ⟨1, 2, .Directory, ".."⟩,
   ⟨3, 3, .RegularFile, "a.txt"⟩, ⟨4, 4, .Directory, "d"⟩]

/-- The session state after one full `readdir` of the scenario tree. -/
def exTreeRepoAfter : GitRepo :=
  ⟨exTreeObjects, 5, [(4, "t2"), (3, "b1"), (2, "t1")],
   [(4, (1, "c1")), (3, (1, "c1")), (2, (1, "c1"))]⟩

/-- A session on the same store after two further registrations. -/
def exTreeRepoB1 : GitRepo := ⟨exTreeObjects, 3, [(2, "b1")], []⟩

/-- A session on the same store with both the blob and the empty tree
registered. -/
def exTreeRepoB1T2 : GitRepo := ⟨exTreeObjects, 4, [(3, "t2"), (2, "b1")], []⟩

/-- Entries of a tree holding one readable file, one submodule entry
(gitlink to an absent commit), and one entry whose blob is missing from the
store. -/
def exSubEntries : List TreeEntry :=
  [⟨"a.txt", "b1", some .blob, 0o100644⟩,
   ⟨"sub", "c9", some .commit, 0o160000⟩,
   ⟨"gone", "b7", some .blob, 0o100644⟩]

/-- A store holding that tree and the one resolvable blob. -/
def exSubObjects : Oid → Option ObjData := fun h =>
  if h = "t3" then some (.tree exSubEntries)
  else if h = "b1" then some (.blob [104, 105])
  else none

/-- A session where that tree is registered at inode 2. -/
def exSubRepo : GitRepo := ⟨exSubObjects, 3, [(2, "t3")], []⟩

/-- The session state after one full `readdir` of that tree. -/
def exSubRepoAfter : GitRepo :=
  ⟨exSubObjects, 4, [(3, "b1"), (2, "t3")], [(3, (1, ""))]⟩

/-- A syntactically valid 40-character commit hash. -/
def exHash : String := "aaaaaaaaaaaaaaaaaaaaaaaaaaaaaaaaaaaaaaaa"

/-- A store holding the commit named by `exHash` and its root tree. -/
def exRootObjects : Oid → Option ObjData := fun h =>
  if h = exHash then some (.commit "t2")
  else if h = "t2" then some (.tree [])
  else none

/-- A corrupt store: the commit named by `exHash` is present but its root
tree is missing. -/
def exNoTreeObjects : Oid → Option ObjData := fun h =>
  if h = exHash then some (.commit "t2") else none

/-! ### Association-list lemmas -/

theorem getByRight_mem {m : List (Nat × Oid)} {h : Oid} {i : Nat}
    (he : getByRight m h = some i) : (i, h) ∈ m := by
  unfold getByRight at he
  cases hf : m.find? (fun p => p.2 = h) with
  | none => rw [hf] at he; simp at he
  | some pr =>
    rw [hf] at he
    have hm := List.mem_of_find?_eq_some hf
    have hp := List.find?_some hf
    simp only [decide_eq_true_eq] at hp
    simp only [Option.map] at he
    have : pr = (i, h) := by
      cases pr
      simp only [Option.some.injEq] at he
      simp_all
    rw [this] at hm
    exact hm

theorem getByRight_none {m : List (Nat × Oid)} {h : Oid}
    (he : getByRight m h = none) : ∀ p ∈ m, p.2 ≠ h := by
  unfold getByRight at he
  cases hf : m.find? (fun p => p.2 = h) with
  | none =>
    intro p hp
    have := List.find?_eq_none.mp hf p hp
    simpa using this
  | some pr => rw [hf] at he; simp at he

theorem getByRight_of_mem {m : List (Nat × Oid)} {i : Nat} {h : Oid}
    (hp : m.Pairwise (fun p q => p.2 ≠ q.2)) (hm : (i, h) ∈ m) :
    getByRight m h = some i := by
  induction m with
  | nil => cases hm
  | cons a rest ih =>
    rw [List.pairwise_cons] at hp
    rcases List.mem_cons.mp hm with heq | hmem
    · subst heq
      unfold getByRight
      rw [List.find?_cons_of_pos _ (by simp)]
      rfl
    · unfold getByRight
      rw [List.find?_cons_of_neg _ (by simpa using hp.1 _ hmem)]
      exact ih hp.2 hmem

theorem getByLeft_mem {m : List (Nat × Oid)} {i : Nat} {h : Oid}
    (he : getByLeft m i = some h) : (i, h) ∈ m := by
  unfold getByLeft at he
  cases hf : m.find? (fun p => p.1 = i) with
  | none => rw [hf] at he; simp at he
  | some pr =>
    rw [hf] at he
    have hm := List.mem_of_find?_eq_some hf
    have hp := List.find?_some hf
    simp only [decide_eq_true_eq] at hp
    simp only [Option.map] at he
    have : pr = (i, h) := by
      cases pr
      simp only [Option.some.injEq] at he
      simp_all
    rw [this] at hm
    exact hm

theorem getByLeft_of_mem {m : List (Nat × Oid)} {i : Nat} {h : Oid}
    (hp : m.Pairwise (fun p q => p.1 ≠ q.1)) (hm : (i, h) ∈ m) :
    getByLeft m i = some h := by
  induction m with
  | nil => cases hm
  | cons a rest ih =>
    rw [List.pairwise_cons] at hp
    rcases List.mem_cons.mp hm with heq | hmem
    · subst heq
      unfold getByLeft
      rw [List.find?_cons_of_pos _ (by simp)]
      rfl
    · unfold getByLeft
      rw [List.find?_cons_of_neg _ (by simpa using hp.1 _ hmem)]
      exact ih hp.2 hmem

theorem pfind_of_mem {m : List (Nat × (Nat × Oid))} {i : Nat} {pr : Nat × Oid}
    (hp : m.Pairwise (fun p q => p.1 ≠ q.1)) (hm : (i, pr) ∈ m) :
    m.find? (fun q => q.1 = i) = some (i, pr) := by
  induction m with
  | nil => cases hm
  | cons a rest ih =>
    rw [List.pairwise_cons] at hp
    rcases List.mem_cons.mp hm with heq | hmem
    · subst heq
      rw [List.find?_cons_of_pos _ (by simp)]
    · rw [List.find?_cons_of_neg _ (by simpa using hp.1 _ hmem)]
      exact ih hp.2 hmem

theorem bimapInsert_eq_cons {m : List (Nat × Oid)} {i : Nat} {h : Oid}
    (hc : ∀ p ∈ m, p.1 ≠ i ∧ p.2 ≠ h) : bimapInsert m i h = (i, h) :: m := by
  unfold bimapInsert
  congr 1
  rw [List.filter_eq_self]
  intro p hp
  simpa using hc p hp

/-! ### `get_object` characterization -/

theorem goodPairwiseRight {s : GitRepo} (hg : Good s) :
    s.inode_map.Pairwise (fun p q => p.2 ≠ q.2) :=
  hg.2.2.2.1.imp (fun h => h.2)

theorem goodPairwiseLeft {s : GitRepo} (hg : Good s) :
    s.inode_map.Pairwise (fun p q => p.1 ≠ q.1) :=
  hg.2.2.2.1.imp (fun h => h.1)

theorem get_object_eq_none {s : GitRepo} {h : Oid} {k : Option ObjectType}
    (hF : findObject s.objects h k = none) : get_object s h k = (none, s) := by
  unfold get_object; rw [hF]

theorem get_object_hit {s : GitRepo} {h : Oid} {k : Option ObjectType}
    {o : ObjData} {i : Nat} (hF : findObject s.objects h k = some o)
    (hR : getByRight s.inode_map h = some i) :
    get_object s h k = (some (i, o), s) := by
  unfold get_object; rw [hF, hR]

theorem get_object_fresh {s : GitRepo} {h : Oid} {k : Option ObjectType}
    {o : ObjData} (hF : findObject s.objects h k = some o)
    (hR : getByRight s.inode_map h = none) :
    get_object s h k =
      (some (s.next_ino, o),
        { s with
            next_ino := s.next_ino + 1,
            inode_map := bimapInsert s.inode_map s.next_ino h }) := by
  unfold get_object; rw [hF, hR]

theorem get_object_inv {s t : GitRepo} {h : Oid} {k : Option ObjectType}
    {i : Nat} {o : ObjData} (he : get_object s h k = (some (i, o), t)) :
    findObject s.objects h k = some o ∧
      ((getByRight s.inode_map h = some i ∧ t = s) ∨
        (getByRight s.inode_map h = none ∧ i = s.next_ino ∧
          t = { s with
                  next_ino := s.next_ino + 1,
                  inode_map := bimapInsert s.inode_map s.next_ino h })) := by
  unfold get_object at he
  cases hF : findObject s.objects h k with
  | none => rw [hF] at he; simp at he
  | some o2 =>
    rw [hF] at he
    cases hR : getByRight s.inode_map h with
    | some i2 =>
      rw [hR] at he
      simp only [Prod.mk.injEq, Option.some.injEq] at he
      obtain ⟨⟨h1, h2⟩, h3⟩ := he
      subst h1; subst h2
      exact ⟨rfl, Or.inl ⟨rfl, h3.symm⟩⟩
    | none =>
      rw [hR] at he
      simp only [Prod.mk.injEq, Option.some.injEq] at he
      obtain ⟨⟨h1, h2⟩, h3⟩ := he
      subst h1; subst h2
      exact ⟨rfl, Or.inr ⟨rfl, rfl, h3.symm⟩⟩

theorem get_object_mem {s t : GitRepo} {h : Oid} {k : Option ObjectType}
    {i : Nat} {o : ObjData} (he : get_object s h k = (some (i, o), t)) :
    (i, h) ∈ t.inode_map := by
  rcases get_object_inv he with ⟨_, hc | hc⟩
  · rcases hc with ⟨hR, rfl⟩
    exact getByRight_mem hR
  · rcases hc with ⟨_, rfl, rfl⟩
    exact List.mem_cons_self _ _

theorem get_object_good {s t : GitRepo} {h : Oid} {k : Option ObjectType}
    {r : Option (Nat × ObjData)} (hg : Good s)
    (he : get_object s h k = (r, t)) : Good t := by
  unfold get_object at he
  cases hF : findObject s.objects h k with
  | none => rw [hF] at he; cases he; exact hg
  | some o =>
    rw [hF] at he
    cases hR : getByRight s.inode_map h with
    | some i => rw [hR] at he; cases he; exact hg
    | none =>
      rw [hR] at he
      obtain ⟨hn, hb, hpi, hpw, hppw⟩ := hg
      have hcons : bimapInsert s.inode_map s.next_ino h =
          (s.next_ino, h) :: s.inode_map :=
        bimapInsert_eq_cons (fun p hp =>
          ⟨Nat.ne_of_lt (hb p hp), getByRight_none hR p hp⟩)
      cases he
      refine ⟨Nat.le_succ_of_le hn, ?_, ?_, ?_, hppw⟩
      · intro p hp
        simp only [hcons, List.mem_cons] at hp
        rcases hp with rfl | hp
        · exact Nat.lt_succ_self _
        · exact Nat.lt_succ_of_lt (hb p hp)
      · intro q hq
        exact Nat.lt_succ_of_lt (hpi q hq)
      · rw [hcons, List.pairwise_cons]
        refine ⟨fun p hp => ⟨(Nat.ne_of_lt (hb p hp)).symm,
          fun hh => getByRight_none hR p hp hh.symm⟩, hpw⟩

theorem extends_refl (s : GitRepo) : Extends s s :=
  ⟨rfl, Nat.le_refl _, fun _ hp => hp, fun _ hq => hq,
    fun _ hp => Or.inl hp, fun _ hq => Or.inl hq⟩

theorem extends_trans {s t u : GitRepo} (h1 : Extends s t) (h2 : Extends t u) :
    Extends s u := by
  obtain ⟨ho1, hn1, hm1, hp1, hm1r, hp1r⟩ := h1
  obtain ⟨ho2, hn2, hm2, hp2, hm2r, hp2r⟩ := h2
  refine ⟨ho2.trans ho1, Nat.le_trans hn1 hn2,
    fun p hp => hm2 p (hm1 p hp), fun q hq => hp2 q (hp1 q hq), ?_, ?_⟩
  · intro p hp
    rcases hm2r p hp with hp2m | hge
    · exact hm1r p hp2m
    · exact Or.inr (Nat.le_trans hn1 hge)
  · intro q hq
    rcases hp2r q hq with hq2m | hge
    · exact hp1r q hq2m
    · exact Or.inr (Nat.le_trans hn1 hge)

theorem get_object_extends {s t : GitRepo} {h : Oid} {k : Option ObjectType}
    {r : Option (Nat × ObjData)} (hg : Good s)
    (he : get_object s h k = (r, t)) : Extends s t := by
  unfold get_object at he
  cases hF : findObject s.objects h k with
  | none => rw [hF] at he; cases he; exact extends_refl s
  | some o =>
    rw [hF] at he
    cases hR : getByRight s.inode_map h with
    | some i => rw [hR] at he; cases he; exact extends_refl s
    | none =>
      rw [hR] at he
      have hcons : bimapInsert s.inode_map s.next_ino h =
          (s.next_ino, h) :: s.inode_map :=
        bimapInsert_eq_cons (fun p hp =>
          ⟨Nat.ne_of_lt (hg.2.1 p hp), getByRight_none hR p hp⟩)
      cases he
      refine ⟨rfl, Nat.le_succ _, ?_, fun q hq => hq, ?_, fun q hq => Or.inl hq⟩
      · intro p hp
        simp only [hcons, List.mem_cons]
        exact Or.inr hp
      · intro p hp
        simp only [hcons, List.mem_cons] at hp
        rcases hp with rfl | hp
        · exact Or.inr (Nat.le_refl _)
        · exact Or.inl hp

/-! ### `findObject` helpers -/

theorem findObject_none_store {objs : Oid → Option ObjData} {h : Oid}
    {k : Option ObjectType} (hs : objs h = none) : findObject objs h k = none := by
  unfold findObject; rw [hs]

theorem findObject_kind_match {objs : Oid → Option ObjData} {h : Oid}
    {o : ObjData} {k : ObjectType} (hs : objs h = some o)
    (hk : o.otype = k) : findObject objs h (some k) = some o := by
  unfold findObject; rw [hs]; simp [hk]

theorem findObject_kind_mismatch {objs : Oid → Option ObjData} {h : Oid}
    {o : ObjData} {k : ObjectType} (hs : objs h = some o)
    (hk : o.otype ≠ k) : findObject objs h (some k) = none := by
  unfold findObject; rw [hs]; simp [hk]

theorem findObject_some_inv {objs : Oid → Option ObjData} {h : Oid}
    {k : Option ObjectType} {o : ObjData} (he : findObject objs h k = some o) :
    objs h = some o ∧ ∀ k2, k = some k2 → o.otype = k2 := by
  unfold findObject at he
  cases hs : objs h with
  | none => rw [hs] at he; cases he
  | some o2 =>
    rw [hs] at he
    cases k with
    | none =>
      have he2 : some o2 = some o := he
      cases he2
      exact ⟨rfl, fun k2 hk => by cases hk⟩
    | some k2 =>
      have he2 : (if o2.otype = k2 then some o2 else none) = some o := he
      by_cases hk : o2.otype = k2
      · rw [if_pos hk] at he2
        cases he2
        exact ⟨rfl, fun k3 hk3 => by cases hk3; exact hk⟩
      · rw [if_neg hk] at he2
        cases he2

theorem otype_tree {o : ObjData} (ho : o.otype = .tree) :
    ∃ entries, o = .tree entries := by
  cases o <;> simp [ObjData.otype] at ho ⊢

theorem otype_blob {o : ObjData} (ho : o.otype = .blob) :
    ∃ content, o = .blob content := by
  cases o <;> simp [ObjData.otype] at ho ⊢

/-! ### By-inode accessor equations -/

theorem get_object_by_inode_noleft {s : GitRepo} {ino : Nat}
    {k : Option ObjectType} (hL : getByLeft s.inode_map ino = none) :
    get_object_by_inode s ino k = none := by
  unfold get_object_by_inode; rw [hL]

theorem get_object_by_inode_left {s : GitRepo} {ino : Nat} {hash : Oid}
    {k : Option ObjectType} (hL : getByLeft s.inode_map ino = some hash) :
    get_object_by_inode s ino k =
      (findObject s.objects hash k).map (fun o => (ino, o)) := by
  unfold get_object_by_inode; rw [hL]

theorem get_tree_by_inode_noleft {s : GitRepo} {ino : Nat}
    (hL : getByLeft s.inode_map ino = none) : get_tree_by_inode s ino = none := by
  unfold get_tree_by_inode; rw [get_object_by_inode_noleft hL]

theorem get_tree_by_inode_notfound {s : GitRepo} {ino : Nat} {hash : Oid}
    (hL : getByLeft s.inode_map ino = some hash)
    (hF : findObject s.objects hash (some .tree) = none) :
    get_tree_by_inode s ino = none := by
  unfold get_tree_by_inode; rw [get_object_by_inode_left hL, hF]; rfl

theorem get_tree_by_inode_found {s : GitRepo} {ino : Nat} {hash : Oid}
    {entries : List TreeEntry} (hL : getByLeft s.inode_map ino = some hash)
    (hF : findObject s.objects hash (some .tree) = some (.tree entries)) :
    get_tree_by_inode s ino =
      some ⟨ino, (parentInfo s ino).1, (parentInfo s ino).2, entries⟩ := by
  unfold get_tree_by_inode; rw [get_object_by_inode_left hL, hF]; rfl

theorem get_blob_by_inode_noleft {s : GitRepo} {ino : Nat}
    (hL : getByLeft s.inode_map ino = none) : get_blob_by_inode s ino = none := by
  unfold get_blob_by_inode; rw [get_object_by_inode_noleft hL]

theorem get_blob_by_inode_notfound {s : GitRepo} {ino : Nat} {hash : Oid}
    (hL : getByLeft s.inode_map ino = some hash)
    (hF : findObject s.objects hash (some .blob) = none) :
    get_blob_by_inode s ino = none := by
  unfold get_blob_by_inode; rw [get_object_by_inode_left hL, hF]; rfl

theorem get_blob_by_inode_found {s : GitRepo} {ino : Nat} {hash : Oid}
    {content : List Nat} (hL : getByLeft s.inode_map ino = some hash)
    (hF : findObject s.objects hash (some .blob) = some (.blob content)) :
    get_blob_by_inode s ino = some ⟨ino, content⟩ := by
  unfold get_blob_by_inode; rw [get_object_by_inode_left hL, hF]; rfl

theorem get_tree_by_inode_inv {s : GitRepo} {ino : Nat} {tree : GitTree}
    (ht : get_tree_by_inode s ino = some tree) :
    ∃ hash, getByLeft s.inode_map ino = some hash ∧
      s.objects hash = some (.tree tree.entries) ∧
      tree = ⟨ino, (parentInfo s ino).1, (parentInfo s ino).2, tree.entries⟩ := by
  cases hL : getByLeft s.inode_map ino with
  | none => rw [get_tree_by_inode_noleft hL] at ht; cases ht
  | some hash =>
    cases hF : findObject s.objects hash (some .tree) with
    | none => rw [get_tree_by_inode_notfound hL hF] at ht; cases ht
    | some o =>
      obtain ⟨hs, hk⟩ := findObject_some_inv hF
      obtain ⟨entries, rfl⟩ := otype_tree (hk _ rfl)
      rw [get_tree_by_inode_found hL hF] at ht
      cases ht
      exact ⟨hash, rfl, hs, rfl⟩

theorem get_blob_by_inode_inv {s : GitRepo} {ino : Nat} {blob : GitBlob}
    (hb : get_blob_by_inode s ino = some blob) :
    ∃ hash, getByLeft s.inode_map ino = some hash ∧
      s.objects hash = some (.blob blob.content) ∧ blob = ⟨ino, blob.content⟩ := by
  cases hL : getByLeft s.inode_map ino with
  | none => rw [get_blob_by_inode_noleft hL] at hb; cases hb
  | some hash =>
    cases hF : findObject s.objects hash (some .blob) with
    | none => rw [get_blob_by_inode_notfound hL hF] at hb; cases hb
    | some o =>
      obtain ⟨hs, hk⟩ := findObject_some_inv hF
      obtain ⟨content, rfl⟩ := otype_blob (hk _ rfl)
      rw [get_blob_by_inode_found hL hF] at hb
      cases hb
      exact ⟨hash, rfl, hs, rfl⟩

theorem get_blob_by_inode_none_of_tree {s : GitRepo} {ino : Nat}
    {tree : GitTree} (ht : get_tree_by_inode s ino = some tree) :
    get_blob_by_inode s ino = none := by
  obtain ⟨hash, hL, hs, _⟩ := get_tree_by_inode_inv ht
  exact get_blob_by_inode_notfound hL
    (findObject_kind_mismatch hs (by simp [ObjData.otype]))

/-! ### `get_object3` characterization -/

theorem get_object3_eq_none {s : GitRepo} {w h : Oid} {k : Option ObjectType}
    (hF : findObject s.objects h k = none) : get_object3 s w h k = (none, s) := by
  unfold get_object3; rw [hF]

theorem get_object3_hit {s : GitRepo} {w h : Oid} {k : Option ObjectType}
    {o : ObjData} {i : Nat} (hF : findObject s.objects h k = some o)
    (hR : getByRight s.inode_map h = some i) :
    get_object3 s w h k = (some (i, o), s) := by
  unfold get_object3; rw [hF, hR]

theorem get_object3_fresh {s : GitRepo} {w h : Oid} {k : Option ObjectType}
    {o : ObjData} (hF : findObject s.objects h k = some o)
    (hR : getByRight s.inode_map h = none) :
    get_object3 s w h k =
      (some (s.next_ino, o),
        { s with
            next_ino := s.next_ino + 1,
            inode_map := bimapInsert s.inode_map s.next_ino h,
            pinfo :=
              (s.next_ino, ((getByRight s.inode_map w).getD 1, w))
                :: s.pinfo }) := by
  unfold get_object3; rw [hF, hR]

theorem get_object3_inv {s t : GitRepo} {w h : Oid} {k : Option ObjectType}
    {i : Nat} {o : ObjData} (he : get_object3 s w h k = (some (i, o), t)) :
    findObject s.objects h k = some o ∧
      ((getByRight s.inode_map h = some i ∧ t = s) ∨
        (getByRight s.inode_map h = none ∧ i = s.next_ino ∧
          t = { s with
                  next_ino := s.next_ino + 1,
                  inode_map := bimapInsert s.inode_map s.next_ino h,
                  pinfo :=
                    (s.next_ino, ((getByRight s.inode_map w).getD 1, w))
                      :: s.pinfo })) := by
  unfold get_object3 at he
  cases hF : findObject s.objects h k with
  | none => rw [hF] at he; simp at he
  | some o2 =>
    rw [hF] at he
    cases hR : getByRight s.inode_map h with
    | some i2 =>
      rw [hR] at he
      simp only [Prod.mk.injEq, Option.some.injEq] at he
      obtain ⟨⟨h1, h2⟩, h3⟩ := he
      subst h1; subst h2
      exact ⟨rfl, Or.inl ⟨rfl, h3.symm⟩⟩
    | none =>
      rw [hR] at he
      simp only [Prod.mk.injEq, Option.some.injEq] at he
      obtain ⟨⟨h1, h2⟩, h3⟩ := he
      subst h1; subst h2
      exact ⟨rfl, Or.inr ⟨rfl, rfl, h3.symm⟩⟩

theorem get_object3_mem {s t : GitRepo} {w h : Oid} {k : Option ObjectType}
    {i : Nat} {o : ObjData} (he : get_object3 s w h k = (some (i, o), t)) :
    (i, h) ∈ t.inode_map := by
  rcases get_object3_inv he with ⟨_, hc | hc⟩
  · rcases hc with ⟨hR, rfl⟩
    exact getByRight_mem hR
  · rcases hc with ⟨_, rfl, rfl⟩
    exact List.mem_cons_self _ _

theorem get_object3_good {s t : GitRepo} {w h : Oid} {k : Option ObjectType}
    {r : Option (Nat × ObjData)} (hg : Good s)
    (he : get_object3 s w h k = (r, t)) : Good t := by
  unfold get_object3 at he
  cases hF : findObject s.objects h k with
  | none => rw [hF] at he; cases he; exact hg
  | some o =>
    rw [hF] at he
    cases hR : getByRight s.inode_map h with
    | some i => rw [hR] at he; cases he; exact hg
    | none =>
      rw [hR] at he
      obtain ⟨hn, hb, hpi, hpw, hppw⟩ := hg
      have hcons : bimapInsert s.inode_map s.next_ino h =
          (s.next_ino, h) :: s.inode_map :=
        bimapInsert_eq_cons (fun p hp =>
          ⟨Nat.ne_of_lt (hb p hp), getByRight_none hR p hp⟩)
      cases he
      refine ⟨Nat.le_succ_of_le hn, ?_, ?_, ?_, ?_⟩
      · intro p hp
        simp only [hcons, List.mem_cons] at hp
        rcases hp with rfl | hp
        · exact Nat.lt_succ_self _
        · exact Nat.lt_succ_of_lt (hb p hp)
      · intro q hq
        simp only [List.mem_cons] at hq
        rcases hq with rfl | hq
        · exact Nat.lt_succ_self _
        · exact Nat.lt_succ_of_lt (hpi q hq)
      · rw [hcons, List.pairwise_cons]
        refine ⟨fun p hp => ⟨(Nat.ne_of_lt (hb p hp)).symm,
          fun hh => getByRight_none hR p hp hh.symm⟩, hpw⟩
      · rw [List.pairwise_cons]
        exact ⟨fun q hq => (Nat.ne_of_lt (hpi q hq)).symm, hppw⟩

theorem get_object3_extends {s t : GitRepo} {w h : Oid} {k : Option ObjectType}
    {r : Option (Nat × ObjData)} (hg : Good s)
    (he : get_object3 s w h k = (r, t)) : Extends s t := by
  unfold get_object3 at he
  cases hF : findObject s.objects h k with
  | none => rw [hF] at he; cases he; exact extends_refl s
  | some o =>
    rw [hF] at he
    cases hR : getByRight s.inode_map h with
    | some i => rw [hR] at he; cases he; exact extends_refl s
    | none =>
      rw [hR] at he
      have hcons : bimapInsert s.inode_map s.next_ino h =
          (s.next_ino, h) :: s.inode_map :=
        bimapInsert_eq_cons (fun p hp =>
          ⟨Nat.ne_of_lt (hg.2.1 p hp), getByRight_none hR p hp⟩)
      cases he
      refine ⟨rfl, Nat.le_succ _, ?_, ?_, ?_, ?_⟩
      · intro p hp
        simp only [hcons, List.mem_cons]
        exact Or.inr hp
      · intro q hq
        exact List.mem_cons_of_mem _ hq
      · intro p hp
        simp only [hcons, List.mem_cons] at hp
        rcases hp with rfl | hp
        · exact Or.inr (Nat.le_refl _)
        · exact Or.inl hp
      · intro q hq
        simp only [List.mem_cons] at hq
        rcases hq with rfl | hq
        · exact Or.inr (Nat.le_refl _)
        · exact Or.inl hq

/-! ### Stability of resolution under session extension -/

theorem get_object_stable {t : GitRepo} {h : Oid} {k : Option ObjectType}
    {i : Nat} {o : ObjData} (hg : Good t) (hmem : (i, h) ∈ t.inode_map)
    (hF : findObject t.objects h k = some o) :
    get_object t h k = (some (i, o), t) :=
  get_object_hit hF (getByRight_of_mem (goodPairwiseRight hg) hmem)

theorem get_object3_stable {t : GitRepo} {w h : Oid} {k : Option ObjectType}
    {i : Nat} {o : ObjData} (hg : Good t) (hmem : (i, h) ∈ t.inode_map)
    (hF : findObject t.objects h k = some o) :
    get_object3 t w h k = (some (i, o), t) :=
  get_object3_hit hF (getByRight_of_mem (goodPairwiseRight hg) hmem)

theorem parentInfo_stable {s t : GitRepo} {ino : Nat} (hg : Good t)
    (hx : Extends s t) (hlt : ino < s.next_ino) :
    parentInfo t ino = parentInfo s ino := by
  unfold parentInfo
  cases hf : s.pinfo.find? (fun q => q.1 = ino) with
  | some q =>
    have hq := List.find?_some hf
    simp only [decide_eq_true_eq] at hq
    have hmem := List.mem_of_find?_eq_some hf
    have hmt : q ∈ t.pinfo := hx.2.2.2.1 q hmem
    cases q with
    | mk q1 q2 =>
      cases hq
      rw [pfind_of_mem hg.2.2.2.2 hmt]
  | none =>
    have hnone : t.pinfo.find? (fun q => q.1 = ino) = none := by
      rw [List.find?_eq_none]
      intro q hq
      simp only [decide_eq_true_eq]
      intro hq1
      rcases hx.2.2.2.2.2 q hq with hqs | hge
      · have := List.find?_eq_none.mp hf q hqs
        simp only [decide_eq_true_eq] at this
        exact this hq1
      · rw [hq1] at hge
        exact absurd hlt (Nat.not_lt_of_le hge)
    rw [hnone]

theorem getByLeft_stable {s t : GitRepo} {ino : Nat} {h : Oid} (hg : Good t)
    (hx : Extends s t) (hL : getByLeft s.inode_map ino = some h) :
    getByLeft t.inode_map ino = some h := by
  have hmem : (ino, h) ∈ s.inode_map := getByLeft_mem hL
  exact getByLeft_of_mem (goodPairwiseLeft hg) (hx.2.2.1 _ hmem)

theorem get_tree_by_inode_stable {s t : GitRepo} {ino : Nat} {tree : GitTree}
    (hs : Good s) (hg : Good t) (hx : Extends s t)
    (ht : get_tree_by_inode s ino = some tree) :
    get_tree_by_inode t ino = some tree := by
  obtain ⟨hash, hL, hso, htree⟩ := get_tree_by_inode_inv ht
  have hlt : ino < s.next_ino := hs.2.1 _ (getByLeft_mem hL)
  have hLt := getByLeft_stable hg hx hL
  have hFt : findObject t.objects hash (some .tree) = some (.tree tree.entries) := by
    rw [hx.1]
    exact findObject_kind_match hso rfl
  rw [get_tree_by_inode_found hLt hFt, parentInfo_stable hg hx hlt, htree]

/-! ### Registry session lemmas -/

theorem runOps_good_extends :
    ∀ (ops : List (Oid × Option ObjectType)) (s : GitRepo), Good s →
      Good (runOps s ops) ∧ Extends s (runOps s ops)
  | [], s, hg => ⟨hg, extends_refl s⟩
  | (h, k) :: rest, s, hg => by
    have he : get_object s h k = ((get_object s h k).1, (get_object s h k).2) :=
      rfl
    have hg2 := get_object_good hg he
    have hx2 := get_object_extends hg he
    have ih := runOps_good_extends rest (get_object s h k).2 hg2
    exact ⟨ih.1, extends_trans hx2 ih.2⟩

/-! ### Claim theorems -/

/-- C3: within one mount session, repeated resolve-or-assign calls for the
same hash return the same inode every time.  If a call on hash `h` succeeds
with inode `i`, then after any further sequence of resolve-or-assign calls,
the same call succeeds again with the same inode `i` and leaves the state
unchanged, and any successful call on `h` (with any kind filter) also
returns `i`. -/
theorem get_object_same_inode (s t : GitRepo) (h : Oid)
    (k k2 : Option ObjectType) (i : Nat) (o : ObjData)
    (ops : List (Oid × Option ObjectType)) (hg : Good s)
    (h1 : get_object s h k = (some (i, o), t)) :
    get_object (runOps t ops) h k = (some (i, o), runOps t ops) ∧
      ∀ i2 o2 u, get_object (runOps t ops) h k2 = (some (i2, o2), u) →
        i2 = i := by
  have hgt : Good t := get_object_good hg h1
  obtain ⟨hgu, hxu⟩ := runOps_good_extends ops t hgt
  have hmem : (i, h) ∈ t.inode_map := get_object_mem h1
  have hmemu : (i, h) ∈ (runOps t ops).inode_map := hxu.2.2.1 _ hmem
  have hxst : Extends s t := get_object_extends hg h1
  have hobj : (runOps t ops).objects = s.objects := by rw [hxu.1, hxst.1]
  have hFu : findObject (runOps t ops).objects h k = some o := by
    rw [hobj]; exact (get_object_inv h1).1
  refine ⟨get_object_stable hgu hmemu hFu, ?_⟩
  intro i2 o2 u he2
  rcases get_object_inv he2 with ⟨_, hc | hc⟩
  · have hR := getByRight_of_mem (goodPairwiseRight hgu) hmemu
    rw [hc.1] at hR
    exact Option.some.inj hR
  · exact absurd rfl (getByRight_none hc.1 _ hmemu)

/-- C3 witness: on a concrete store, the blob `"b1"` is assigned inode 2 by
its first resolution, and after one further resolve-or-assign call the same
call still returns inode 2. -/
theorem get_object_same_inode_witness :
    Good (GitRepo.new exBlobObjects) ∧
      get_object (runOps exBlobRepo [("zz", none)]) "b1" none =
        (some (2, .blob [104, 105]), runOps exBlobRepo [("zz", none)]) :=
  ⟨by decide,
    (get_object_same_inode (GitRepo.new exBlobObjects) exBlobRepo "b1" none
      none 2 (.blob [104, 105]) [("zz", none)] (by decide) rfl).1⟩

/-- C4: the inode↔hash registry is injective in both directions and
resolve-or-assign preserves it: after two successive successful calls from a
good state, the invariant still holds, no previously registered pair was
evicted or overwritten, distinct hashes got distinct inodes, every inode
maps to at most one hash and every hash to at most one inode. -/
theorem get_object_preserves_bijection (s s1 s2 : GitRepo) (h1 h2 : Oid)
    (k1 k2 : Option ObjectType) (i1 i2 : Nat) (o1 o2 : ObjData) (hg : Good s)
    (c1 : get_object s h1 k1 = (some (i1, o1), s1))
    (c2 : get_object s1 h2 k2 = (some (i2, o2), s2)) :
    Good s2 ∧ (∀ p ∈ s.inode_map, p ∈ s2.inode_map) ∧
      (h1 ≠ h2 → i1 ≠ i2) ∧
      (∀ i h h', (i, h) ∈ s2.inode_map → (i, h') ∈ s2.inode_map → h = h') ∧
      (∀ i i' h, (i, h) ∈ s2.inode_map → (i', h) ∈ s2.inode_map → i = i') := by
  have hg1 : Good s1 := get_object_good hg c1
  have hg2 : Good s2 := get_object_good hg1 c2
  have hx1 : Extends s s1 := get_object_extends hg c1
  have hx2 : Extends s1 s2 := get_object_extends hg1 c2
  have funL : ∀ i h h', (i, h) ∈ s2.inode_map → (i, h') ∈ s2.inode_map →
      h = h' := by
    intro i h h' m1 m2
    have e1 := getByLeft_of_mem (goodPairwiseLeft hg2) m1
    have e2 := getByLeft_of_mem (goodPairwiseLeft hg2) m2
    rw [e1] at e2
    exact Option.some.inj e2
  have funR : ∀ i i' h, (i, h) ∈ s2.inode_map → (i', h) ∈ s2.inode_map →
      i = i' := by
    intro i i' h m1 m2
    have e1 := getByRight_of_mem (goodPairwiseRight hg2) m1
    have e2 := getByRight_of_mem (goodPairwiseRight hg2) m2
    rw [e1] at e2
    exact Option.some.inj e2
  refine ⟨hg2, fun p hp => hx2.2.2.1 _ (hx1.2.2.1 _ hp), ?_, funL, funR⟩
  intro hne hii
  have m1 : (i1, h1) ∈ s2.inode_map := hx2.2.2.1 _ (get_object_mem c1)
  have m2 : (i2, h2) ∈ s2.inode_map := get_object_mem c2
  rw [hii] at m1
  exact hne (funL _ _ _ m1 m2)

/-- C4 witness: on a concrete store, resolving the distinct hashes `"b1"`
and `"t2"` in succession yields the distinct inodes 2 and 3 and a good final
registry. -/
theorem get_object_preserves_bijection_witness :
    Good (GitRepo.new exTreeObjects) ∧ Good exTreeRepoB1T2 ∧ (2 : Nat) ≠ 3 := by
  have h := get_object_preserves_bijection (GitRepo.new exTreeObjects)
    exTreeRepoB1 exTreeRepoB1T2 "b1" "t2" none none 2 3 (.blob [104, 105])
    (.tree []) (by decide) rfl rfl
  exact ⟨by decide, h.1, h.2.2.1 (by decide)⟩

/-- C7: `readdir` on the synthetic root (inode 1) always fails with
`ENOENT`, for every state and every offset, emitting nothing. -/
theorem readdir_root_not_listable (s : GitRepo) (offset : Int) :
    readdir s 1 offset = ((.error .ENOENT, []), s) := by
  unfold readdir
  rw [if_pos rfl]

/-- C9: `readdir` on any non-root inode with a negative (non-representable)
offset fails with `EINVAL` before emitting any directory entry. -/
theorem readdir_negative_offset_einval (s : GitRepo) (ino : Nat)
    (offset : Int) (h1 : ino ≠ 1) (h2 : offset < 0) :
    readdir s ino offset = ((.error .EINVAL, []), s) := by
  unfold readdir
  rw [if_neg h1, if_pos h2]

/-- C9 witness: offset `-1` on inode 2 of a concrete session. -/
theorem readdir_negative_offset_einval_witness :
    ((2 : Nat) ≠ 1 ∧ (-1 : Int) < 0) ∧
      readdir exTreeRepo 2 (-1) = ((.error .EINVAL, []), exTreeRepo) :=
  ⟨⟨by decide, by decide⟩,
    readdir_negative_offset_einval exTreeRepo 2 (-1) (by decide) (by decide)⟩

/-- C1 (code bug): reading the registered two-byte blob at inode 2: at
`offset = 3 > length 2` the handler hits the Rust slice panic
(`&content[3..2]`) instead of returning an empty slice; at `offset = 2 =
length` it returns the empty slice; in-range reads return the clamped slice
`content[offset .. min(offset+size, len)]`. -/
theorem read_past_end_panics :
    read exBlobRepo 2 3 4 = .crash ∧ read exBlobRepo 2 2 4 = .data [] ∧
      read exBlobRepo 2 0 10 = .data [104, 105] ∧
      read exBlobRepo 2 1 1 = .data [105] :=
  ⟨rfl, rfl, rfl, rfl⟩

/-- C6: `read` fails with `EISDIR` on the root inode and on every inode that
resolves to a Tree, returning no data. -/
theorem read_directory_eisdir (s : GitRepo) (ino : Nat) (offset : Int)
    (size : Nat) (tree : GitTree)
    (h : ino = 1 ∨ (ino ≠ 1 ∧ get_tree_by_inode s ino = some tree)) :
    read s ino offset size = .error .EISDIR := by
  rcases h with rfl | ⟨hne, ht⟩
  · unfold read
    rw [if_pos rfl]
  · unfold read
    rw [if_neg hne, get_blob_by_inode_none_of_tree ht, ht]

/-- C6 witness: reading the registered tree inode 2 of a concrete session
fails with `EISDIR` (and the root as well). -/
theorem read_directory_eisdir_witness :
    ((2 : Nat) ≠ 1 ∧ get_tree_by_inode exTreeRepo 2 =
        some ⟨2, 1, "c1", exTreeEntries⟩) ∧
      read exTreeRepo 2 0 4 = .error .EISDIR ∧
      read exTreeRepo 1 0 4 = .error .EISDIR :=
  ⟨⟨by decide, rfl⟩,
    read_directory_eisdir exTreeRepo 2 0 4 ⟨2, 1, "c1", exTreeEntries⟩
      (Or.inr ⟨by decide, rfl⟩),
    read_directory_eisdir exTreeRepo 1 0 4 ⟨2, 1, "c1", exTreeEntries⟩
      (Or.inl rfl)⟩

/-- Unfolding of `lookup` on a resolved tree parent. -/
theorem lookup_tree_eq (b : FileAttrBuilder) (s : GitRepo) (ino : Nat)
    (tree : GitTree) (name : String) (hino : ino ≠ 1)
    (ht : get_tree_by_inode s ino = some tree) :
    lookup b s ino name =
      match tree.entries.find? (fun e => e.name = name) with
      | none => (.error .ENOENT, s)
      | some e =>
        match e.kind with
        | some .blob =>
          match get_blob s tree.parentOid e.oid with
          | (some bl, s1) => (.entry (bl.to_file_attr b), s1)
          | (none, s1) => (.error .ENOENT, s1)
        | some .tree =>
          match get_tree s tree.parentOid e.oid with
          | (some t, s1) => (.entry (t.to_file_attr b), s1)
          | (none, s1) => (.error .ENOENT, s1)
        | _ => (.error .ENOENT, s) := by
  unfold lookup
  rw [if_neg hino, ht]

/-- C10: `lookup` on a registered tree inode for an entry that is present in
the captured entry list but whose kind is neither Blob nor Tree (e.g. a
submodule commit entry) fails with `ENOENT` and leaves the state
unchanged. -/
theorem lookup_skips_non_blob_tree_entry (b : FileAttrBuilder) (s : GitRepo)
    (ino : Nat) (tree : GitTree) (name : String) (e : TreeEntry)
    (hino : ino ≠ 1) (ht : get_tree_by_inode s ino = some tree)
    (hf : tree.entries.find? (fun e2 => e2.name = name) = some e)
    (hk1 : e.kind ≠ some .blob) (hk2 : e.kind ≠ some .tree) :
    lookup b s ino name = (.error .ENOENT, s) := by
  rw [lookup_tree_eq b s ino tree name hino ht, hf]
  obtain ⟨ename, eoid, ekind, emode⟩ := e
  cases ekind with
  | none => rfl
  | some k =>
    cases k with
    | commit => rfl
    | tag => rfl
    | blob => exact absurd rfl hk1
    | tree => exact absurd rfl hk2

/-- C10 witness: looking up the submodule entry `"sub"` (kind Commit) in a
concrete registered tree fails with `ENOENT` even though the entry exists. -/
theorem lookup_skips_non_blob_tree_entry_witness :
    ((2 : Nat) ≠ 1 ∧
      get_tree_by_inode exSubRepo 2 = some ⟨2, 1, "", exSubEntries⟩ ∧
      exSubEntries.find? (fun e2 => e2.name = "sub") =
        some ⟨"sub", "c9", some .commit, 0o160000⟩) ∧
      lookup ⟨501, 20⟩ exSubRepo 2 "sub" = (.error .ENOENT, exSubRepo) :=
  ⟨⟨by decide, rfl, by decide⟩,
    lookup_skips_non_blob_tree_entry ⟨501, 20⟩ exSubRepo 2
      ⟨2, 1, "", exSubEntries⟩ "sub" ⟨"sub", "c9", some .commit, 0o160000⟩
      (by decide) rfl (by decide) (by decide) (by decide)⟩

/-! ### Root lookup (C5) -/

theorem get_object_some_of_find {s : GitRepo} {h : Oid} {k : Option ObjectType}
    {o : ObjData} (hF : findObject s.objects h k = some o) :
    ∃ i t, get_object s h k = (some (i, o), t) := by
  cases hR : getByRight s.inode_map h with
  | some i => exact ⟨i, s, get_object_hit hF hR⟩
  | none => exact ⟨s.next_ino, _, get_object_fresh hF hR⟩

theorem lookup_root_eq (b : FileAttrBuilder) (s : GitRepo) (name : String) :
    lookup b s 1 name =
      match lookup_commit b s name with
      | (some attr, s1) => (.entry attr, s1)
      | (none, s1) => (.error .ENOENT, s1) := by
  unfold lookup
  rw [if_pos rfl]

theorem lookup_commit_noparse {b : FileAttrBuilder} {s : GitRepo}
    {name : String} (hn : parseOid name = none) :
    lookup_commit b s name = (none, s) := by
  unfold lookup_commit; rw [hn]

theorem lookup_commit_parse {b : FileAttrBuilder} {s : GitRepo}
    {name : String} {oid : Oid} (hp : parseOid name = some oid) :
    lookup_commit b s name =
      match get_tree_by_commit s oid with
      | (some t, s1) => (some (t.to_file_attr b), s1)
      | (none, s1) => (none, s1) := by
  unfold lookup_commit; rw [hp]

theorem get_tree_by_commit_nocommit {s : GitRepo} {oid : Oid}
    (hF : findObject s.objects oid (some .commit) = none) :
    get_tree_by_commit s oid = (none, s) := by
  unfold get_tree_by_commit; rw [get_object_eq_none hF]

theorem get_tree_by_commit_commit {s s1 : GitRepo} {oid troot : Oid} {ci : Nat}
    (he : get_object s oid (some .commit) = (some (ci, .commit troot), s1)) :
    get_tree_by_commit s oid = get_tree s1 oid troot := by
  unfold get_tree_by_commit; rw [he]

theorem get_tree_of_go3 {s t : GitRepo} {w h : Oid} {i : Nat}
    {entries : List TreeEntry}
    (he : get_object3 s w h (some .tree) = (some (i, .tree entries), t)) :
    get_tree s w h =
      (some ⟨i, (parentInfo t i).1, (parentInfo t i).2, entries⟩, t) := by
  unfold get_tree; rw [he]

/-- C5 counterexample: a store where the name parses as a valid hash and
resolves to a Commit, yet `lookup(1, name)` fails with `ENOENT` because the
commit's root tree is missing from the (corrupt) store — so "parses and
resolves to a Commit" alone does not imply lookup success. -/
theorem lookup_root_commit_without_tree :
    parseOid exHash = some exHash ∧
      findObject exNoTreeObjects exHash (some .commit) =
        some (.commit "t2") ∧
      lookup ⟨501, 20⟩ (GitRepo.new exNoTreeObjects) 1 exHash =
        (.error .ENOENT, ⟨exNoTreeObjects, 3, [(2, exHash)], []⟩) :=
  ⟨rfl, rfl, rfl⟩

/-- C5 (amended): for lookup with parent inode 1: a name that fails to parse
as a hash, or parses but does not resolve to a Commit, yields `ENOENT` with
the state unchanged; a name that parses and resolves to a Commit whose root
tree also resolves as a Tree yields that root Tree's directory attributes
(ino = the tree's registered inode, size 0, kind Directory). -/
theorem lookup_root_amended (b : FileAttrBuilder) (s : GitRepo)
    (hg : Good s) :
    (∀ name, parseOid name = none →
        lookup b s 1 name = (.error .ENOENT, s)) ∧
      (∀ name oid, parseOid name = some oid →
        findObject s.objects oid (some .commit) = none →
        lookup b s 1 name = (.error .ENOENT, s)) ∧
      (∀ name oid troot entries, parseOid name = some oid →
        findObject s.objects oid (some .commit) = some (.commit troot) →
        findObject s.objects troot (some .tree) = some (.tree entries) →
        ∃ i s2, lookup b s 1 name =
            (.entry ⟨i, 0, .Directory, 0o755, 2, b.uid, b.gid⟩, s2) ∧
          (i, troot) ∈ s2.inode_map ∧ Good s2) := by
  refine ⟨?_, ?_, ?_⟩
  · intro name hn
    rw [lookup_root_eq, lookup_commit_noparse hn]
  · intro name oid hp hF
    rw [lookup_root_eq, lookup_commit_parse hp, get_tree_by_commit_nocommit hF]
  · intro name oid troot entries hp hFc hFt
    obtain ⟨ci, s1, hcall⟩ := get_object_some_of_find hFc
    have hg1 : Good s1 := get_object_good hg hcall
    have hx1 : Extends s s1 := get_object_extends hg hcall
    have hFt1 : findObject s1.objects troot (some .tree) =
        some (.tree entries) := by rw [hx1.1]; exact hFt
    cases hR2 : getByRight s1.inode_map troot with
    | some i =>
      have hgo3 := get_object3_hit (w := oid) hFt1 hR2
      refine ⟨i, s1, ?_, getByRight_mem hR2, hg1⟩
      rw [lookup_root_eq, lookup_commit_parse hp,
        get_tree_by_commit_commit hcall, get_tree_of_go3 hgo3]
      rfl
    | none =>
      have hgo3 := get_object3_fresh (w := oid) hFt1 hR2
      refine ⟨s1.next_ino, _, ?_, List.mem_cons_self _ _, get_object3_good hg1 hgo3⟩
      rw [lookup_root_eq, lookup_commit_parse hp,
        get_tree_by_commit_commit hcall, get_tree_of_go3 hgo3]
      rfl

/-- C5 witness: on a concrete well-formed store, looking up the commit hash
at the root succeeds with directory attributes for the commit's root
tree. -/
theorem lookup_root_amended_witness :
    Good (GitRepo.new exRootObjects) ∧
      ∃ i s2, lookup ⟨501, 20⟩ (GitRepo.new exRootObjects) 1 exHash =
          (.entry ⟨i, 0, .Directory, 0o755, 2, 501, 20⟩, s2) ∧
        (i, "t2") ∈ s2.inode_map ∧ Good s2 :=
  ⟨by decide,
    (lookup_root_amended ⟨501, 20⟩ (GitRepo.new exRootObjects)
      (by decide)).2.2 exHash exHash "t2" [] rfl rfl rfl⟩

/-! ### Per-entry readdir processing -/

theorem get_object3_some_of_find {s : GitRepo} {w h : Oid}
    {k : Option ObjectType} {o : ObjData}
    (hF : findObject s.objects h k = some o) :
    ∃ i t, get_object3 s w h k = (some (i, o), t) := by
  cases hR : getByRight s.inode_map h with
  | some i => exact ⟨i, s, get_object3_hit hF hR⟩
  | none => exact ⟨s.next_ino, _, get_object3_fresh hF hR⟩

theorem get_object3_none_inv {s t : GitRepo} {w h : Oid}
    {k : Option ObjectType} (he : get_object3 s w h k = (none, t)) :
    findObject s.objects h k = none ∧ t = s := by
  unfold get_object3 at he
  cases hF : findObject s.objects h k with
  | none =>
    rw [hF] at he
    cases he
    exact ⟨rfl, rfl⟩
  | some o =>
    rw [hF] at he
    cases hR : getByRight s.inode_map h with
    | some i => rw [hR] at he; simp at he
    | none => rw [hR] at he; simp at he

theorem processEntry_eq_fail {s : GitRepo} {parent : Oid} {p : Nat × TreeEntry}
    (hF : findObject s.objects p.2.oid p.2.kind = none) :
    processEntry s parent p = (([], [p.2.oid]), s) := by
  unfold processEntry
  rw [get_object3_eq_none hF]

theorem processEntry_eq_blob {s t : GitRepo} {parent : Oid}
    {p : Nat × TreeEntry} {i : Nat} {c : List Nat}
    (hgo : get_object3 s parent p.2.oid p.2.kind = (some (i, .blob c), t)) :
    processEntry s parent p =
      (([⟨i, (p.1 : Int) + 3, .RegularFile, p.2.name⟩], []), t) := by
  unfold processEntry
  rw [hgo]
  rfl

theorem processEntry_eq_tree {s t : GitRepo} {parent : Oid}
    {p : Nat × TreeEntry} {i : Nat} {es : List TreeEntry}
    (hgo : get_object3 s parent p.2.oid p.2.kind = (some (i, .tree es), t)) :
    processEntry s parent p =
      (([⟨i, (p.1 : Int) + 3, .Directory, p.2.name⟩], []), t) := by
  unfold processEntry
  rw [hgo]
  rfl

theorem processEntry_eq_other {s t : GitRepo} {parent : Oid}
    {p : Nat × TreeEntry} {i : Nat} {o : ObjData}
    (hgo : get_object3 s parent p.2.oid p.2.kind = (some (i, o), t))
    (h1 : o.otype ≠ .blob) (h2 : o.otype ≠ .tree) :
    processEntry s parent p = (([], [p.2.oid]), t) := by
  unfold processEntry
  rw [hgo]
  cases o with
  | commit c => rfl
  | tag => rfl
  | blob c => exact absurd rfl h1
  | tree es => exact absurd rfl h2

theorem processEntry_good_extends {s : GitRepo} {parent : Oid}
    {p : Nat × TreeEntry} {out : List DirEntry × List Oid} {t : GitRepo}
    (hg : Good s) (hpe : processEntry s parent p = (out, t)) :
    Good t ∧ Extends s t := by
  unfold processEntry at hpe
  rcases hgo : get_object3 s parent p.2.oid p.2.kind with ⟨r, t2⟩
  rw [hgo] at hpe
  have hgt : Good t2 := get_object3_good hg hgo
  have hxt : Extends s t2 := get_object3_extends hg hgo
  cases r with
  | none => cases hpe; exact ⟨hgt, hxt⟩
  | some io =>
    rcases io with ⟨i, o⟩
    cases o with
    | blob c => cases hpe; exact ⟨hgt, hxt⟩
    | tree es => cases hpe; exact ⟨hgt, hxt⟩
    | commit c => cases hpe; exact ⟨hgt, hxt⟩
    | tag => cases hpe; exact ⟨hgt, hxt⟩

theorem processEntry_replay {s : GitRepo} {parent : Oid} {p : Nat × TreeEntry}
    {d : List DirEntry} {e : List Oid} {t0 : GitRepo}
    (hpe : processEntry s parent p = ((d, e), t0)) {t : GitRepo}
    (hgt : Good t) (hxt : Extends t0 t) (hobj : t.objects = s.objects) :
    processEntry t parent p = ((d, e), t) := by
  rcases hgo : get_object3 s parent p.2.oid p.2.kind with ⟨r, t2⟩
  cases r with
  | none =>
    obtain ⟨hF, ht2⟩ := get_object3_none_inv hgo
    have hFt : findObject t.objects p.2.oid p.2.kind = none := by
      rw [hobj]; exact hF
    rw [processEntry_eq_fail hF] at hpe
    cases hpe
    exact processEntry_eq_fail hFt
  | some io =>
    rcases io with ⟨i, o⟩
    have hmem : (i, p.2.oid) ∈ t2.inode_map := get_object3_mem hgo
    have hFo : findObject s.objects p.2.oid p.2.kind = some o :=
      (get_object3_inv hgo).1
    have hFt : findObject t.objects p.2.oid p.2.kind = some o := by
      rw [hobj]; exact hFo
    unfold processEntry at hpe
    rw [hgo] at hpe
    cases o with
    | blob c =>
      cases hpe
      exact processEntry_eq_blob
        (get_object3_stable (w := parent) hgt (hxt.2.2.1 _ hmem) hFt)
    | tree es =>
      cases hpe
      exact processEntry_eq_tree
        (get_object3_stable (w := parent) hgt (hxt.2.2.1 _ hmem) hFt)
    | commit c =>
      cases hpe
      exact processEntry_eq_other
        (get_object3_stable (w := parent) hgt (hxt.2.2.1 _ hmem) hFt)
        (by simp [ObjData.otype]) (by simp [ObjData.otype])
    | tag =>
      cases hpe
      exact processEntry_eq_other
        (get_object3_stable (w := parent) hgt (hxt.2.2.1 _ hmem) hFt)
        (by simp [ObjData.otype]) (by simp [ObjData.otype])

theorem get_object3_objects {s t : GitRepo} {w h : Oid}
    {k : Option ObjectType} {r : Option (Nat × ObjData)}
    (he : get_object3 s w h k = (r, t)) : t.objects = s.objects := by
  unfold get_object3 at he
  cases hF : findObject s.objects h k with
  | none => rw [hF] at he; cases he; rfl
  | some o =>
    rw [hF] at he
    cases hR : getByRight s.inode_map h with
    | some i => rw [hR] at he; cases he; rfl
    | none => rw [hR] at he; cases he; rfl

theorem processEntry_objects {s : GitRepo} {parent : Oid} {p : Nat × TreeEntry}
    {out : List DirEntry × List Oid} {t : GitRepo}
    (hpe : processEntry s parent p = (out, t)) : t.objects = s.objects := by
  unfold processEntry at hpe
  rcases hgo : get_object3 s parent p.2.oid p.2.kind with ⟨r, t2⟩
  rw [hgo] at hpe
  have hto := get_object3_objects hgo
  cases r with
  | none => cases hpe; exact hto
  | some io =>
    rcases io with ⟨i, o⟩
    cases o with
    | blob c => cases hpe; exact hto
    | tree es => cases hpe; exact hto
    | commit c => cases hpe; exact hto
    | tag => cases hpe; exact hto

theorem processEntries_nil {parent : Oid} {s : GitRepo} :
    processEntries parent s [] = (([], []), s) := rfl

theorem processEntries_cons {parent : Oid} {s : GitRepo} {p : Nat × TreeEntry}
    {L : List (Nat × TreeEntry)} {d : List DirEntry} {e : List Oid}
    {t : GitRepo} {ds : List DirEntry} {errs : List Oid} {u : GitRepo}
    (hpe : processEntry s parent p = ((d, e), t))
    (hrest : processEntries parent t L = ((ds, errs), u)) :
    processEntries parent s (p :: L) = ((d ++ ds, e ++ errs), u) := by
  show ((((processEntry s parent p).1.1 ++
      (processEntries parent (processEntry s parent p).2 L).1.1,
    (processEntry s parent p).1.2 ++
      (processEntries parent (processEntry s parent p).2 L).1.2)),
    (processEntries parent (processEntry s parent p).2 L).2) =
      ((d ++ ds, e ++ errs), u)
  rw [hpe]
  have h2 : processEntries parent
      (((d, e), t) : (List DirEntry × List Oid) × GitRepo).2 L =
      ((ds, errs), u) := hrest
  rw [h2]

theorem processEntries_good_extends {parent : Oid} :
    ∀ (L : List (Nat × TreeEntry)) (s : GitRepo)
      {out : List DirEntry × List Oid} {s1 : GitRepo}, Good s →
      processEntries parent s L = (out, s1) → Good s1 ∧ Extends s s1
  | [], s, out, s1, hg, he => by
    rw [processEntries_nil] at he
    cases he
    exact ⟨hg, extends_refl s⟩
  | p :: L, s, out, s1, hg, he => by
    rcases hpe : processEntry s parent p with ⟨⟨d, e⟩, t⟩
    rcases hrest : processEntries parent t L with ⟨⟨ds2, errs2⟩, u⟩
    rw [processEntries_cons hpe hrest] at he
    cases he
    obtain ⟨hgt, hxt⟩ := processEntry_good_extends hg hpe
    obtain ⟨hgu, hxu⟩ := processEntries_good_extends L t hgt hrest
    exact ⟨hgu, extends_trans hxt hxu⟩

theorem processEntries_replay {parent : Oid} :
    ∀ (L : List (Nat × TreeEntry)) (s : GitRepo) {ds : List DirEntry}
      {errs : List Oid} {s1 : GitRepo}, Good s →
      processEntries parent s L = ((ds, errs), s1) →
      ∀ t, Good t → Extends s1 t → t.objects = s.objects →
        processEntries parent t L = ((ds, errs), t)
  | [], s, ds, errs, s1, hg, he, t, hgt, hxt, hobj => by
    rw [processEntries_nil] at he
    cases he
    exact processEntries_nil
  | p :: L, s, ds, errs, s1, hg, he, t, hgt, hxt, hobj => by
    rcases hpe : processEntry s parent p with ⟨⟨d, e⟩, t0⟩
    rcases hrest : processEntries parent t0 L with ⟨⟨ds2, errs2⟩, u⟩
    rw [processEntries_cons hpe hrest] at he
    cases he
    obtain ⟨hgt0, hxt0⟩ := processEntry_good_extends hg hpe
    obtain ⟨hgu, hxu⟩ := processEntries_good_extends L t0 hgt0 hrest
    have hx0t : Extends t0 t := extends_trans hxu hxt
    have hpet : processEntry t parent p = ((d, e), t) :=
      processEntry_replay hpe hgt hx0t hobj
    have hobj2 : t.objects = t0.objects := by
      rw [hobj, ← hxt0.1]
    have hrt : processEntries parent t L = ((ds2, errs2), t) :=
      processEntries_replay L t0 hgt0 hrest t hgt hxt hobj2
    exact processEntries_cons hpet hrt

theorem entryFT_fail {objs : Oid → Option ObjData} {e : TreeEntry}
    (hF : findObject objs e.oid e.kind = none) : entryFT objs e = none := by
  unfold entryFT; rw [hF]

theorem entryFT_blob {objs : Oid → Option ObjData} {e : TreeEntry}
    {c : List Nat} (hF : findObject objs e.oid e.kind = some (.blob c)) :
    entryFT objs e = some .RegularFile := by
  unfold entryFT; rw [hF]; rfl

theorem entryFT_tree {objs : Oid → Option ObjData} {e : TreeEntry}
    {es : List TreeEntry} (hF : findObject objs e.oid e.kind = some (.tree es)) :
    entryFT objs e = some .Directory := by
  unfold entryFT; rw [hF]; rfl

theorem entryFT_other {objs : Oid → Option ObjData} {e : TreeEntry}
    {o : ObjData} (hF : findObject objs e.oid e.kind = some o)
    (h1 : o.otype ≠ .blob) (h2 : o.otype ≠ .tree) : entryFT objs e = none := by
  unfold entryFT
  rw [hF]
  cases o with
  | commit c => rfl
  | tag => rfl
  | blob c => exact absurd rfl h1
  | tree es => exact absurd rfl h2

/-- The projection of an emitted directory entry that is determined by the
store alone (everything except the assigned inode number). -/
def dirProj (d : DirEntry) : Int × FileType × String := (d.off, d.kind, d.name)

/-- The store-determined shape of the per-entry loop output: emitted entries
(up to inode numbers) are exactly the entries whose object resolves as Blob
or Tree, at offset `idx + 3` in stored order, and the error log lists
exactly the other entries' hashes, in order; the store itself is never
modified. -/
theorem processEntries_shape {parent : Oid} :
    ∀ (L : List (Nat × TreeEntry)) (s : GitRepo) {ds : List DirEntry}
      {errs : List Oid} {s1 : GitRepo},
      processEntries parent s L = ((ds, errs), s1) →
      ds.map dirProj = L.filterMap (fun p => (entryFT s.objects p.2).map
          (fun ft => ((p.1 : Int) + 3, ft, p.2.name))) ∧
        errs = L.filterMap (fun p =>
          match entryFT s.objects p.2 with
          | some _ => none
          | none => some p.2.oid) ∧
        s1.objects = s.objects
  | [], s, ds, errs, s1, he => by
    rw [processEntries_nil] at he
    cases he
    exact ⟨rfl, rfl, rfl⟩
  | p :: L, s, ds, errs, s1, he => by
    rcases hpe : processEntry s parent p with ⟨⟨d, e⟩, t⟩
    rcases hrest : processEntries parent t L with ⟨⟨ds2, errs2⟩, u⟩
    rw [processEntries_cons hpe hrest] at he
    cases he
    have hobj : t.objects = s.objects := processEntry_objects hpe
    obtain ⟨ih1, ih2, ih3⟩ := processEntries_shape L t hrest
    rw [hobj] at ih1 ih2
    cases hF : findObject s.objects p.2.oid p.2.kind with
    | none =>
      have hft := entryFT_fail hF
      rw [processEntry_eq_fail hF] at hpe
      cases hpe
      refine ⟨?_, ?_, by rw [ih3, hobj]⟩
      · rw [List.filterMap_cons_none (by simp [hft])]
        simpa using ih1
      · rw [List.filterMap_cons_some (b := p.2.oid) (by simp [hft])]
        simpa using ih2
    | some o =>
      obtain ⟨i, t2, hgo⟩ := get_object3_some_of_find (w := parent) hF
      cases o with
      | blob c =>
        have hft := entryFT_blob hF
        rw [processEntry_eq_blob hgo] at hpe
        cases hpe
        refine ⟨?_, ?_, by rw [ih3, hobj]⟩
        · rw [List.filterMap_cons_some
            (b := ((p.1 : Int) + 3, FileType.RegularFile, p.2.name)) (by simp [hft])]
          simpa [dirProj] using ih1
        · rw [List.filterMap_cons_none (by simp [hft])]
          simpa using ih2
      | tree es =>
        have hft := entryFT_tree hF
        rw [processEntry_eq_tree hgo] at hpe
        cases hpe
        refine ⟨?_, ?_, by rw [ih3, hobj]⟩
        · rw [List.filterMap_cons_some
            (b := ((p.1 : Int) + 3, FileType.Directory, p.2.name)) (by simp [hft])]
          simpa [dirProj] using ih1
        · rw [List.filterMap_cons_none (by simp [hft])]
          simpa using ih2
      | commit c =>
        have hft := entryFT_other hF (by simp [ObjData.otype]) (by simp [ObjData.otype])
        rw [processEntry_eq_other hgo (by simp [ObjData.otype])
          (by simp [ObjData.otype])] at hpe
        cases hpe
        refine ⟨?_, ?_, by rw [ih3, hobj]⟩
        · rw [List.filterMap_cons_none (by simp [hft])]
          simpa using ih1
        · rw [List.filterMap_cons_some (b := p.2.oid) (by simp [hft])]
          simpa using ih2
      | tag =>
        have hft := entryFT_other hF (by simp [ObjData.otype]) (by simp [ObjData.otype])
        rw [processEntry_eq_other hgo (by simp [ObjData.otype])
          (by simp [ObjData.otype])] at hpe
        cases hpe
        refine ⟨?_, ?_, by rw [ih3, hobj]⟩
        · rw [List.filterMap_cons_none (by simp [hft])]
          simpa using ih1
        · rw [List.filterMap_cons_some (b := p.2.oid) (by simp [hft])]
          simpa using ih2

/-! ### Enumeration bookkeeping -/

theorem enumFrom_drop {α : Type} :
    ∀ (k n : Nat) (l : List α),
      (List.enumFrom n l).drop k = List.enumFrom (n + k) (l.drop k)
  | 0, n, l => by simp
  | k + 1, n, [] => by simp
  | k + 1, n, a :: l => by
    rw [List.enumFrom_cons]
    show (List.enumFrom (n + 1) l).drop k = _
    rw [enumFrom_drop k (n + 1) l]
    congr 1
    omega

theorem enumFrom_take {α : Type} :
    ∀ (k n : Nat) (l : List α),
      (List.enumFrom n l).take k = List.enumFrom n (l.take k)
  | 0, n, l => by simp
  | k + 1, n, [] => by simp
  | k + 1, n, a :: l => by
    rw [List.enumFrom_cons]
    show (n, a) :: (List.enumFrom (n + 1) l).take k = _
    rw [enumFrom_take k (n + 1) l]
    rfl

theorem mem_enumFrom_bounds {α : Type} {p : Nat × α} {n : Nat} {l : List α}
    (hp : p ∈ List.enumFrom n l) : n ≤ p.1 ∧ p.1 < n + l.length := by
  rcases p with ⟨i, x⟩
  obtain ⟨h1, h2, _⟩ := List.mem_enumFrom hp
  exact ⟨h1, h2⟩

theorem mem_enumFrom_snd {α : Type} {p : Nat × α} {n : Nat} {l : List α}
    (hp : p ∈ List.enumFrom n l) : p.2 ∈ l := by
  rcases p with ⟨i, x⟩
  obtain ⟨h1, h2, h3⟩ := List.mem_enumFrom hp
  rw [h3]
  exact List.getElem_mem _

theorem pairwise_enumFrom {α : Type} :
    ∀ (l : List α) (n : Nat),
      (List.enumFrom n l).Pairwise (fun p q => p.1 < q.1)
  | [], n => List.Pairwise.nil
  | a :: l, n => by
    rw [List.enumFrom_cons, List.pairwise_cons]
    refine ⟨fun q hq => ?_, pairwise_enumFrom l (n + 1)⟩
    have := (mem_enumFrom_bounds hq).1
    omega

theorem enumFrom_filterMap_snd {α β : Type} (f : α → Option β) :
    ∀ (n : Nat) (l : List α),
      (List.enumFrom n l).filterMap (fun p => f p.2) = l.filterMap f
  | n, [] => rfl
  | n, a :: l => by
    rw [List.enumFrom_cons]
    cases hfa : f a with
    | none =>
      rw [List.filterMap_cons_none (by simpa using hfa),
        List.filterMap_cons_none hfa]
      exact enumFrom_filterMap_snd f (n + 1) l
    | some b =>
      rw [List.filterMap_cons_some (by simpa using hfa),
        List.filterMap_cons_some hfa]
      rw [enumFrom_filterMap_snd f (n + 1) l]

/-- Every emitted entry's offset is `idx + 3` for some processed index. -/
theorem processEntries_off_mem {parent : Oid} {L : List (Nat × TreeEntry)}
    {s : GitRepo} {ds : List DirEntry} {errs : List Oid} {s1 : GitRepo}
    (he : processEntries parent s L = ((ds, errs), s1)) :
    ∀ d ∈ ds, ∃ p ∈ L, d.off = (p.1 : Int) + 3 := by
  intro d hd
  obtain ⟨h1, _, _⟩ := processEntries_shape L s he
  have hmem : dirProj d ∈ ds.map dirProj := List.mem_map_of_mem _ hd
  rw [h1] at hmem
  obtain ⟨p, hp, hfp⟩ := List.mem_filterMap.mp hmem
  obtain ⟨ft, _, hval⟩ := Option.map_eq_some'.mp hfp
  refine ⟨p, hp, ?_⟩
  have : d.off = ((p.1 : Int) + 3, ft, p.2.name).1 := by
    rw [hval]; rfl
  simpa using this

/-- The emitted entries' offsets are strictly increasing whenever the
processed indices are. -/
theorem processEntries_pairwise {parent : Oid} :
    ∀ (L : List (Nat × TreeEntry)) (s : GitRepo) {ds : List DirEntry}
      {errs : List Oid} {s1 : GitRepo},
      L.Pairwise (fun p q => p.1 < q.1) →
      processEntries parent s L = ((ds, errs), s1) →
      ds.Pairwise (fun a b => a.off < b.off)
  | [], s, ds, errs, s1, hL, he => by
    rw [processEntries_nil] at he
    cases he
    exact List.Pairwise.nil
  | p :: L, s, ds, errs, s1, hL, he => by
    rcases hpe : processEntry s parent p with ⟨⟨d, e⟩, t⟩
    rcases hrest : processEntries parent t L with ⟨⟨ds2, errs2⟩, u⟩
    rw [processEntries_cons hpe hrest] at he
    cases he
    rw [List.pairwise_cons] at hL
    have ih := processEntries_pairwise L t hL.2 hrest
    rw [List.pairwise_append]
    refine ⟨?_, ih, ?_⟩
    · -- `d` has at most one element
      rcases hgo : get_object3 s parent p.2.oid p.2.kind with ⟨r, t2⟩
      cases r with
      | none =>
        obtain ⟨hF, _⟩ := get_object3_none_inv hgo
        rw [processEntry_eq_fail hF] at hpe
        cases hpe
        exact List.Pairwise.nil
      | some io =>
        rcases io with ⟨i, o⟩
        cases o with
        | blob c => rw [processEntry_eq_blob hgo] at hpe; cases hpe; simp
        | tree es => rw [processEntry_eq_tree hgo] at hpe; cases hpe; simp
        | commit c =>
          rw [processEntry_eq_other hgo (by simp [ObjData.otype])
            (by simp [ObjData.otype])] at hpe
          cases hpe
          exact List.Pairwise.nil
        | tag =>
          rw [processEntry_eq_other hgo (by simp [ObjData.otype])
            (by simp [ObjData.otype])] at hpe
          cases hpe
          exact List.Pairwise.nil
    · intro a ha b hb
      obtain ⟨q, hq, hboff⟩ := processEntries_off_mem hrest b hb
      have haoff : a.off = (p.1 : Int) + 3 := by
        rcases hgo : get_object3 s parent p.2.oid p.2.kind with ⟨r, t2⟩
        cases r with
        | none =>
          obtain ⟨hF, _⟩ := get_object3_none_inv hgo
          rw [processEntry_eq_fail hF] at hpe
          cases hpe
          cases ha
        | some io =>
          rcases io with ⟨i, o⟩
          cases o with
          | blob c =>
            rw [processEntry_eq_blob hgo] at hpe
            cases hpe
            rw [List.mem_singleton.mp ha]
          | tree es =>
            rw [processEntry_eq_tree hgo] at hpe
            cases hpe
            rw [List.mem_singleton.mp ha]
          | commit c =>
            rw [processEntry_eq_other hgo (by simp [ObjData.otype])
              (by simp [ObjData.otype])] at hpe
            cases hpe
            cases ha
          | tag =>
            rw [processEntry_eq_other hgo (by simp [ObjData.otype])
              (by simp [ObjData.otype])] at hpe
            cases hpe
            cases ha
      have hpq : p.1 < q.1 := hL.1 q hq
      rw [haoff, hboff]
      omega

theorem processEntries_append {parent : Oid} :
    ∀ (L1 L2 : List (Nat × TreeEntry)) (s : GitRepo) {ds1 : List DirEntry}
      {errs1 : List Oid} {t : GitRepo} {ds2 : List DirEntry}
      {errs2 : List Oid} {u : GitRepo},
      processEntries parent s L1 = ((ds1, errs1), t) →
      processEntries parent t L2 = ((ds2, errs2), u) →
      processEntries parent s (L1 ++ L2) = ((ds1 ++ ds2, errs1 ++ errs2), u)
  | [], L2, s, ds1, errs1, t, ds2, errs2, u, h1, h2 => by
    rw [processEntries_nil] at h1
    cases h1
    simpa using h2
  | p :: L1, L2, s, ds1, errs1, t, ds2, errs2, u, h1, h2 => by
    rcases hpe : processEntry s parent p with ⟨⟨d, e⟩, t0⟩
    rcases hrest : processEntries parent t0 L1 with ⟨⟨dsA, errsA⟩, v⟩
    rw [processEntries_cons hpe hrest] at h1
    cases h1
    have ih := processEntries_append L1 L2 t0 hrest h2
    have hc := processEntries_cons hpe ih
    simpa [List.append_assoc] using hc

/-! ### Readdir-level equations -/

theorem readdir_tree {s : GitRepo} {ino : Nat} {offset : Int} {tree : GitTree}
    (hino : ino ≠ 1) (hnn : ¬ offset < 0)
    (ht : get_tree_by_inode s ino = some tree) :
    readdir s ino offset = readdirTree s tree offset.toNat := by
  unfold readdir
  rw [if_neg hino, if_neg hnn, ht]

theorem readdirTree_eq {s : GitRepo} {tree : GitTree} {off : Nat}
    {ds : List DirEntry} {errs : List Oid} {s1 : GitRepo}
    (hpe : processEntries tree.parentOid s
      (tree.entries.enum.drop (off - 2)) = ((ds, errs), s1)) :
    readdirTree s tree off = ((.ok (readdirDots tree off ++ ds), errs), s1) := by
  show ((ReaddirResult.ok (readdirDots tree off ++
      (processEntries tree.parentOid s
        (tree.entries.enum.drop (off - 2))).1.1),
    (processEntries tree.parentOid s
      (tree.entries.enum.drop (off - 2))).1.2),
    (processEntries tree.parentOid s
      (tree.entries.enum.drop (off - 2))).2) =
    ((ReaddirResult.ok (readdirDots tree off ++ ds), errs), s1)
  rw [hpe]

/-- C8: during `readdir` of a registered tree inode, the call completes with
an `ok` reply; the emitted listing contains `"."`, `".."`, and exactly those
captured entries whose object resolves (through the entry-kind filter) as a
Blob or Tree, in stored order at offsets `idx + 3`; every other captured
entry is omitted, and its hash appears in the operator-visible error log, in
order.  An individual entry failure never aborts the listing. -/
theorem readdir_isolates_entry_failures (s : GitRepo) (ino : Nat)
    (tree : GitTree) (res : ReaddirResult) (errs : List Oid) (s1 : GitRepo)
    (hino : ino ≠ 1) (ht : get_tree_by_inode s ino = some tree)
    (hrun : readdir s ino 0 = ((res, errs), s1)) :
    ∃ ds, res = .ok (⟨tree.ino, 1, .Directory, "."⟩ ::
        ⟨tree.parentIno, 2, .Directory, ".."⟩ :: ds) ∧
      ds.map dirProj = tree.entries.enum.filterMap
        (fun p => (entryFT s.objects p.2).map
          (fun ft => ((p.1 : Int) + 3, ft, p.2.name))) ∧
      errs = tree.entries.filterMap (fun e =>
        match entryFT s.objects e with
        | some _ => none
        | none => some e.oid) := by
  rcases hpe : processEntries tree.parentOid s
      (tree.entries.enum.drop ((0 : Int).toNat - 2)) with ⟨⟨ds, errs2⟩, u⟩
  have hrd : readdir s ino 0 =
      ((.ok (readdirDots tree 0 ++ ds), errs2), u) := by
    rw [readdir_tree hino (by norm_num) ht]
    exact readdirTree_eq hpe
  rw [hrd] at hrun
  cases hrun
  obtain ⟨h1, h2, _⟩ := processEntries_shape _ _ hpe
  refine ⟨ds, rfl, ?_, ?_⟩
  · exact h1
  · rw [h2]
    exact enumFrom_filterMap_snd (fun e =>
      match entryFT s.objects e with
      | some _ => none
      | none => some e.oid) 0 tree.entries

/-- C8 witness: on the concrete tree containing a readable file, a
submodule entry, and an entry with a missing blob, `readdir` emits `"."`,
`".."`, and the file, logs the two failing hashes, and still replies ok. -/
theorem readdir_isolates_entry_failures_witness :
    ((2 : Nat) ≠ 1 ∧
      get_tree_by_inode exSubRepo 2 = some ⟨2, 1, "", exSubEntries⟩) ∧
      ∃ ds, (ReaddirResult.ok
          [⟨2, 1, .Directory, "."⟩, ⟨1, 2, .Directory, ".."⟩,
           ⟨3, 3, .RegularFile, "a.txt"⟩]) =
          .ok (⟨2, 1, .Directory, "."⟩ :: ⟨1, 2, .Directory, ".."⟩ :: ds) ∧
        ds.map dirProj = exSubEntries.enum.filterMap
          (fun p => (entryFT exSubRepo.objects p.2).map
            (fun ft => ((p.1 : Int) + 3, ft, p.2.name))) ∧
        ["c9", "b7"] = exSubEntries.filterMap (fun e =>
          match entryFT exSubRepo.objects e with
          | some _ => none
          | none => some e.oid) :=
  ⟨⟨by decide, rfl⟩,
    readdir_isolates_entry_failures exSubRepo 2 ⟨2, 1, "", exSubEntries⟩
      (.ok [⟨2, 1, .Directory, "."⟩, ⟨1, 2, .Directory, ".."⟩,
        ⟨3, 3, .RegularFile, "a.txt"⟩])
      ["c9", "b7"] exSubRepoAfter (by decide) rfl rfl⟩

/-! ### Paging helpers -/

/-- With every entry resolvable, the emitted projection is a plain map. -/
theorem filterMap_entryFT_eq_map (objs : Oid → Option ObjData) :
    ∀ (l : List (Nat × TreeEntry)),
      (∀ p ∈ l, (entryFT objs p.2).isSome) →
      l.filterMap (fun p => (entryFT objs p.2).map
          (fun ft => ((p.1 : Int) + 3, ft, p.2.name))) =
        l.map (fun p =>
          ((p.1 : Int) + 3, (entryFT objs p.2).getD .RegularFile, p.2.name))
  | [], _ => rfl
  | p :: l, h => by
    obtain ⟨ft, hft⟩ := Option.isSome_iff_exists.mp (h p (List.mem_cons_self p l))
    rw [List.filterMap_cons_some (b := ((p.1 : Int) + 3, ft, p.2.name))
        (by simp [hft]), List.map_cons,
      filterMap_entryFT_eq_map objs l (fun q hq => h q (List.mem_cons_of_mem p hq))]
    rw [hft]
    rfl

/-- A strictly off-sorted list splits as its `≤ v` prefix then its `> v`
suffix. -/
theorem filter_split_sorted :
    ∀ (l : List DirEntry) (v : Int), l.Pairwise (fun a b => a.off < b.off) →
      l.filter (fun d => d.off ≤ v) ++ l.filter (fun d => v < d.off) = l
  | [], v, _ => rfl
  | d :: l, v, hp => by
    rw [List.pairwise_cons] at hp
    by_cases hv : d.off ≤ v
    · rw [List.filter_cons_of_pos (by simpa using hv),
        List.filter_cons_of_neg (by simpa using not_lt.mpr hv)]
      rw [List.cons_append, filter_split_sorted l v hp.2]
    · rw [List.filter_cons_of_neg (by simpa using hv),
        List.filter_cons_of_pos (by simpa using lt_of_not_ge hv)]
      have h1 : l.filter (fun d2 => d2.off ≤ v) = [] := by
        rw [List.filter_eq_nil_iff]
        intro a ha
        have := hp.1 a ha
        simp only [decide_eq_true_eq]
        omega
      have h2 : l.filter (fun d2 => v < d2.off) = l := by
        rw [List.filter_eq_self]
        intro a ha
        have := hp.1 a ha
        simp only [decide_eq_true_eq]
        omega
      rw [h1, h2]
      rfl

/-- C2: `readdir` of a registered tree inode (with every captured entry
resolvable, so nothing is omitted) lists `"."` at offset 1, `".."` at
offset 2, and the captured entries at offsets `3, 4, …` in stored order; a
repeated call with resume cursor `off` emits exactly the entries at offsets
strictly greater than `off` (and leaves the state fixed), and the entries at
offsets `≤ off` followed by those at offsets `> off` reconstitute the full
listing exactly — so paging with monotonically advancing cursors neither
duplicates nor drops entries. -/
theorem readdir_paging (s : GitRepo) (ino : Nat) (tree : GitTree)
    (full : List DirEntry) (errs : List Oid) (s1 : GitRepo)
    (hg : Good s) (hino : ino ≠ 1)
    (ht : get_tree_by_inode s ino = some tree)
    (hall : ∀ e ∈ tree.entries, (entryFT s.objects e).isSome)
    (hrun : readdir s ino 0 = ((.ok full, errs), s1)) :
    full.map dirProj =
        (1, FileType.Directory, ".") :: (2, FileType.Directory, "..") ::
          tree.entries.enum.map (fun p =>
            ((p.1 : Int) + 3, (entryFT s.objects p.2).getD .RegularFile,
              p.2.name)) ∧
      errs = [] ∧
      (∀ off : Int, 0 ≤ off →
        readdir s1 ino off =
          ((.ok (full.filter (fun d => off < d.off)), []), s1)) ∧
      (∀ off : Int,
        full.filter (fun d => d.off ≤ off) ++
          full.filter (fun d => off < d.off) = full) := by
  rcases hpe : processEntries tree.parentOid s
      (tree.entries.enum.drop ((0 : Int).toNat - 2)) with ⟨⟨ds, errs0⟩, u⟩
  have hpe0 : processEntries tree.parentOid s tree.entries.enum =
      ((ds, errs0), u) := hpe
  have hrd : readdir s ino 0 =
      ((.ok (readdirDots tree 0 ++ ds), errs0), u) := by
    rw [readdir_tree hino (by norm_num) ht]
    exact readdirTree_eq hpe
  rw [hrd] at hrun
  obtain ⟨⟨hfull, herrs⟩, hs1⟩ : (ReaddirResult.ok (readdirDots tree 0 ++ ds) =
      .ok full ∧ errs0 = errs) ∧ u = s1 := by
    constructor
    · constructor
      · exact congrArg (fun x => x.1.1) hrun
      · exact congrArg (fun x => x.1.2) hrun
    · exact congrArg (fun x => x.2) hrun
  have hfull2 : full = readdirDots tree 0 ++ ds := by
    cases hfull; rfl
  subst hs1
  subst herrs
  have hallL : ∀ p ∈ tree.entries.enum, (entryFT s.objects p.2).isSome :=
    fun p hp => hall p.2 (mem_enumFrom_snd hp)
  obtain ⟨hgu, hxu⟩ := processEntries_good_extends _ s hg hpe0
  obtain ⟨hsh1, hsh2, hobj1⟩ := processEntries_shape _ s hpe0
  have herrs0 : errs0 = [] := by
    rw [hsh2, List.filterMap_eq_nil_iff]
    intro p hp
    obtain ⟨ft, hft⟩ := Option.isSome_iff_exists.mp (hallL p hp)
    simp [hft]
  have hmapds : ds.map dirProj = tree.entries.enum.map (fun p =>
      ((p.1 : Int) + 3, (entryFT s.objects p.2).getD .RegularFile,
        p.2.name)) := by
    rw [hsh1]
    exact filterMap_entryFT_eq_map s.objects _ hallL
  have hdots0 : readdirDots tree 0 =
      [⟨tree.ino, 1, .Directory, "."⟩, ⟨tree.parentIno, 2, .Directory, ".."⟩] :=
    rfl
  have hpwds : ds.Pairwise (fun a b => a.off < b.off) :=
    processEntries_pairwise _ s (pairwise_enumFrom tree.entries 0) hpe0
  have hoffds : ∀ d ∈ ds, ∃ p ∈ tree.entries.enum, d.off = (p.1 : Int) + 3 :=
    processEntries_off_mem hpe0
  have hpwfull : full.Pairwise (fun a b => a.off < b.off) := by
    rw [hfull2, hdots0]
    rw [List.pairwise_append]
    refine ⟨?_, hpwds, ?_⟩
    · rw [List.pairwise_cons]
      constructor
      · intro b hb
        rw [List.mem_singleton.mp hb]
        norm_num
      · simp
    · intro a ha b hb
      obtain ⟨q, _, hqb⟩ := hoffds b hb
      have haoff : a.off = 1 ∨ a.off = 2 := by
        rcases List.mem_cons.mp ha with rfl | ha2
        · left; rfl
        · rw [List.mem_singleton.mp ha2]
          right; rfl
      rcases haoff with h | h <;> rw [h, hqb] <;> omega
  refine ⟨?_, herrs0, ?_, fun off => filter_split_sorted full off hpwfull⟩
  · rw [hfull2, List.map_append, hdots0, hmapds]
    rfl
  · intro off hoff
    obtain ⟨k, rfl⟩ : ∃ k : Nat, off = (k : Int) :=
      ⟨off.toNat, (Int.toNat_of_nonneg hoff).symm⟩
    have ht1 : get_tree_by_inode u ino = some tree :=
      get_tree_by_inode_stable hg hgu hxu ht
    rcases hA : processEntries tree.parentOid s
        (tree.entries.enum.take (k - 2)) with ⟨⟨dsA, errsA⟩, v⟩
    rcases hB : processEntries tree.parentOid v
        (tree.entries.enum.drop (k - 2)) with ⟨⟨dsB, errsB⟩, u2⟩
    have happ := processEntries_append _ _ s hA hB
    rw [List.take_append_drop, hpe0] at happ
    obtain ⟨⟨hds, herr2⟩, hu2⟩ : (ds = dsA ++ dsB ∧ errs0 = errsA ++ errsB) ∧
        u = u2 := by
      constructor
      · constructor
        · exact congrArg (fun x => x.1.1) happ
        · exact congrArg (fun x => x.1.2) happ
      · exact congrArg (fun x => x.2) happ
    obtain ⟨hgv, hxv⟩ := processEntries_good_extends _ s hg hA
    have hobjv : u.objects = v.objects := by
      rw [hobj1, hxv.1]
    have hB1 : processEntries tree.parentOid u
        (tree.entries.enum.drop (k - 2)) = ((dsB, errsB), u) := by
      refine processEntries_replay _ v hgv hB u hgu ?_ hobjv
      rw [hu2]
      exact extends_refl u2
    have hrd2 : readdir u ino (k : Int) =
        ((.ok (readdirDots tree k ++ dsB), errsB), u) := by
      rw [readdir_tree hino (by omega) ht1]
      have hkk : ((k : Int)).toNat = k := Int.toNat_natCast k
      rw [hkk]
      exact readdirTree_eq hB1
    rw [hrd2]
    have herrsB : errsB = [] := by
      have := herr2
      rw [herrs0] at this
      exact (List.append_eq_nil.mp this.symm).2
    have hfilterA : dsA.filter (fun d => (k : Int) < d.off) = [] := by
      rw [List.filter_eq_nil_iff]
      intro d hd
      obtain ⟨p, hp, hpoff⟩ := processEntries_off_mem hA d hd
      have hbound : p.1 < k - 2 := by
        have hp2 : p ∈ List.enumFrom 0 (tree.entries.take (k - 2)) := by
          rw [← enumFrom_take]
          exact hp
        have := (mem_enumFrom_bounds hp2).2
        have hlen : (tree.entries.take (k - 2)).length ≤ k - 2 :=
          List.length_take_le _ _
        omega
      simp only [decide_eq_true_eq]
      rw [hpoff]
      have : (p.1 : Int) + 3 ≤ (k : Int) := by
        have : p.1 + 3 ≤ k := by omega
        exact_mod_cast this
      omega
    have hfilterB : dsB.filter (fun d => (k : Int) < d.off) = dsB := by
      rw [List.filter_eq_self]
      intro d hd
      obtain ⟨p, hp, hpoff⟩ := processEntries_off_mem hB d hd
      have hbound : k - 2 ≤ p.1 := by
        have hp2 : p ∈ List.enumFrom (0 + (k - 2)) (tree.entries.drop (k - 2)) := by
          rw [← enumFrom_drop]
          exact hp
        exact le_trans (by omega) (mem_enumFrom_bounds hp2).1
      simp only [decide_eq_true_eq]
      rw [hpoff]
      have : (k : Int) < (p.1 : Int) + 3 := by
        have : k < p.1 + 3 := by omega
        exact_mod_cast this
      omega
    have hfilterDots : (readdirDots tree 0).filter (fun d => (k : Int) < d.off) =
        readdirDots tree k := by
      rw [hdots0]
      rcases k with _ | (_ | k2)
      · rfl
      · rfl
      · show List.filter _ _ = readdirDots tree (k2 + 2)
        rw [List.filter_cons_of_neg (by simp; omega),
          List.filter_cons_of_neg (by simp; omega)]
        unfold readdirDots
        rw [if_pos (by omega), if_pos (by omega)]
        rfl
    rw [hfull2, hds, herrsB, List.filter_append, List.filter_append,
      hfilterA, hfilterB, hfilterDots]
    rw [List.nil_append]

/-- C2 witness: on the spec §8 scenario tree, the full call lists `"."`,
`".."`, `"a.txt"`, `"d"` at offsets 1-4; resuming with cursor 2 emits
exactly the entries at offsets 3 and 4 and leaves the state unchanged. -/
theorem readdir_paging_witness :
    (Good exTreeRepo ∧
      readdir exTreeRepo 2 0 = ((.ok exTreeFull, []), exTreeRepoAfter)) ∧
      readdir exTreeRepoAfter 2 2 =
        ((.ok (exTreeFull.filter (fun d => (2 : Int) < d.off)), []),
          exTreeRepoAfter) ∧
      exTreeFull.filter (fun d => (2 : Int) < d.off) =
        [⟨3, 3, .RegularFile, "a.txt"⟩, ⟨4, 4, .Directory, "d"⟩] :=
  ⟨⟨by decide, rfl⟩,
    (readdir_paging exTreeRepo 2 ⟨2, 1, "c1", exTreeEntries⟩ exTreeFull []
      exTreeRepoAfter (by decide) (by decide) rfl (by decide) rfl).2.2.1 2
      (by decide),
    by decide⟩

end Giblefs
